import Mathlib

/-!
Verification of the `udsv_serde` crate (a serde codec for the UDSV
"positional delimited value" single-line text format).

The embedding is character-level: Rust `&str` / `String` values are modelled
as `List Char`.  The crate operates on single-line, delimiter-structured
text; on ASCII inputs (which all delimiters and escapes are) the byte
indices used by `match_indices` coincide with character indices, and
`shift_input_forward`'s byte counts coincide with character counts.

Decode side (`src/udsv_serde/src/de.rs`): the deserializer state is the
remaining input plus the two context flags `in_seq` / `in_map`.  Each
primitive is modelled as a function `DState → Except Error α × DState`;
an error result carries the state at the point of failure, matching the
in-place mutation of the Rust `Deserializer`.  The serde visitor plumbing
is driven by an explicit `Schema` (the static type that drives derived
`Deserialize` impls) and produces explicit `Value` trees.  The element
loops of `SeqAccess` / `MapAccess` are unbounded in the source, so the
schema-driven driver `decodeD` takes a fuel argument and is structurally
recursive on it; `record_from_str` supplies fuel that is ample for every
input exercised in the claims (fuel exhaustion surfaces as `Error.Message`,
which none of the proved statements relies on).

Encode side (`src/udsv_serde/src/ser.rs`): the serializer state is the
output buffer plus the same two flags; encoding of the supported `Value`
trees never fails, so `encodeValue : Value → SState → SState`.
-/

namespace Udsv

abbrev Str := List Char

/-- Mirror of `err.rs`: `enum Error`.  `Message` stands for
`Error::Message(String)` (serde `custom` errors, e.g. `invalid_length` from
derived visitors); the string payload is irrelevant to the claims and is
dropped. -/
inductive Error where
  | Message
  | Eof
  | Syntax
  | BytesUnsupported
  | IntegerOverflow
  | ExpectedBoolean
  | ExpectedInteger
  | ExpectedChar
  | ExpectedString
  | ExpectedEmpty
  | ExpectedArray
  | ExpectedArrayComma
  | ExpectedArrayEnd
  | ExpectedMap
  | ExpectedMapComma
  | ExpectedMapEquals
  | ExpectedMapEnd
  | ExpectedEnum
  | TrailingCharacters
  deriving Repr, DecidableEq

/-- Mirror of `struct Deserializer` in `de.rs`: remaining input plus the two
context flags. -/
structure DState where
  input : Str
  in_seq : Bool
  in_map : Bool
  deriving Repr, DecidableEq

/-- Rust `str::replace` for a single-character pattern `p`: every occurrence
of `p` is replaced by `rep`, left to right; replacement text is not
rescanned. -/
def replace1 (p : Char) (rep : Str) : Str → Str
  | [] => []
  | c :: rest =>
    if c = p then rep ++ replace1 p rep rest
    else c :: replace1 p rep rest

/-- Rust `str::replace` for a two-character pattern `[p, q]`: every
non-overlapping occurrence is replaced by `rep`, scanning left to right;
after a replacement the scan resumes after the matched pattern, and the
replacement text is not rescanned. -/
def replace2 (p q : Char) (rep : Str) : Str → Str
  | [] => []
  | [c] => [c]
  | c :: d :: rest =>
    if c = p ∧ d = q then rep ++ replace2 p q rep rest
    else c :: replace2 p q rep (d :: rest)

/-- Scanning core of `Deserializer::get_next_nonescaped_char`.
`nonescapedFrom ch prev i s` scans `s`, where the character just before
`s`'s first element is `prev` and `s`'s first element sits at index `i` of
the full input; it returns the index of the first element equal to `ch`
whose predecessor is not a backslash. -/
def nonescapedFrom (ch : Char) (prev : Char) (i : Nat) : Str → Option Nat
  | [] => none
  | c :: rest =>
    if c = ch ∧ prev ≠ '\\' then some i
    else nonescapedFrom ch c (i + 1) rest

/-- Mirror of `Deserializer::get_next_nonescaped_char`: the source filters
the match indices by `idx > 0 && input[idx - 1] != '\\'` and takes the first
survivor.  The `idx > 0` conjunct drops any occurrence at index 0, which the
scan reproduces by starting at index 1 with the character at index 0 as the
predecessor. -/
def get_next_nonescaped_char (s : Str) (ch : Char) : Option Nat :=
  match s with
  | [] => none
  | c :: rest => nonescapedFrom ch c 1 rest

/-- The `match (idx, other_idx)` min-combination used twice in
`get_next_delimiter_idx`. -/
def optMin : Option Nat → Option Nat → Option Nat
  | some a, some b => some (min a b)
  | some a, none => some a
  | none, some b => some b
  | none, none => none

/-- Mirror of `Deserializer::get_next_delimiter_idx`: the minimum over the
unescaped positions of the context-active delimiters (`:` always, `,` when
`in_seq || in_map`, `=` when `in_map`). -/
def get_next_delimiter_idx (st : DState) : Option Nat :=
  let idx := get_next_nonescaped_char st.input ':'
  let idx :=
    if st.in_seq || st.in_map then
      optMin idx (get_next_nonescaped_char st.input ',')
    else idx
  if st.in_map then optMin idx (get_next_nonescaped_char st.input '=') else idx

/-- Mirror of `Deserializer::shift_input_forward`. -/
def shift_input_forward (st : DState) (len : Nat) : DState :=
  { st with input := st.input.drop len }

/-- Mirror of `Deserializer::peek_char`: first character or `Error::Eof`,
input unchanged. -/
def peek_char (st : DState) : Except Error Char × DState :=
  match st.input with
  | [] => (Except.error Error.Eof, st)
  | c :: _ => (Except.ok c, st)

/-- Mirror of `Deserializer::next_char`: consume the first character. -/
def next_char (st : DState) : Except Error Char × DState :=
  match st.input with
  | [] => (Except.error Error.Eof, st)
  | c :: rest => (Except.ok c, { st with input := rest })

/-- The `!self.first && self.de.next_char()? != self.delim` step of
`DelimiterSeparated`: consume one character and require it to equal the
delimiter `d`, failing with `e` otherwise (the character is consumed either
way, as `next_char` advances before the comparison). -/
def expect_delim (d : Char) (e : Error) (st : DState) : Except Error Unit × DState :=
  match next_char st with
  | (Except.ok c, st') =>
    if c = d then (Except.ok (), st') else (Except.error e, st')
  | (Except.error e0, st') => (Except.error e0, st')

/-- Mirror of `Deserializer::parse_bool`: exact literal prefix match against
`"true"` / `"false"`. -/
def parse_bool (st : DState) : Except Error Bool × DState :=
  if ("true".toList).isPrefixOf st.input then
    (Except.ok true, shift_input_forward st 4)
  else if ("false".toList).isPrefixOf st.input then
    (Except.ok false, shift_input_forward st 5)
  else (Except.error Error.ExpectedBoolean, st)

/-- Numeric value of a decimal digit character (`ch as u8 - b'0'`). -/
def digitVal (c : Char) : Nat := c.toNat - '0'.toNat

/-- Digit-accumulation loop of `Deserializer::parse_unsigned` for a `w`-bit
unsigned target type: `int *= 10; int += digit`.  The source's arithmetic
"can overflow and panic or return bogus data" (its own comment); the model
uses the release-build wraparound semantics, reducing each step modulo
`2 ^ w`. -/
def parse_unsigned_loop (w : Nat) (acc : Nat) : Str → Nat × Str
  | [] => (acc, [])
  | c :: rest =>
    if c.isDigit then
      parse_unsigned_loop w ((acc * 10 + digitVal c) % 2 ^ w) rest
    else (acc, c :: rest)

/-- Mirror of `Deserializer::parse_unsigned`: `next_char` (consuming even on
failure), require a digit, then accumulate. -/
def parse_unsigned (w : Nat) (st : DState) : Except Error Nat × DState :=
  match next_char st with
  | (Except.error e, st') => (Except.error e, st')
  | (Except.ok c, st') =>
    if c.isDigit then
      match parse_unsigned_loop w (digitVal c) st'.input with
      | (n, rest') => (Except.ok n, { st' with input := rest' })
    else (Except.error Error.ExpectedInteger, st')

/-- Mirror of `Deserializer::parse_string`: slice up to the next active
delimiter (or end of input), advance the cursor past the slice, then apply
the escape replacements in exactly the source's order:
`\:`, `\,`, `\=`, then `\\` → `\`, then removal of backslash-newline, then
`\n`, `\r`, `\t`. -/
def parse_string (st : DState) : Except Error Str × DState :=
  let len := (get_next_delimiter_idx st).getD st.input.length
  let raw := st.input.take len
  let s := replace2 '\\' ':' [':'] raw
  let s := replace2 '\\' ',' [','] s
  let s := replace2 '\\' '=' ['='] s
  let s := replace2 '\\' '\\' ['\\'] s
  let s := replace2 '\\' '\n' [] s
  let s := replace2 '\\' 'n' ['\n'] s
  let s := replace2 '\\' 'r' ['\r'] s
  let s := replace2 '\\' 't' ['\t'] s
  (Except.ok s, shift_input_forward st len)

/-- The none-detection of `deserialize_option`: empty input, or one of the
`match (next_char, self.in_seq, self.in_map)` arms of the source —
`(':', false, false)`, `(':' | ',', true, false)`,
`(':' | ',' | '=', _, true)` — grouped here by the two flags. -/
def option_is_none (st : DState) : Bool :=
  match st.input with
  | [] => true
  | c :: _ =>
    match st.in_seq, st.in_map with
    | false, false => c == ':'
    | true, false => c == ':' || c == ','
    | _, true => c == ':' || c == ',' || c == '='

/-! Static schemas driving the codec, standing for the Rust types whose
derived `Deserialize` / `Serialize` impls the crate's tests exercise:
booleans, `w`-bit unsigned integers, `char`, strings, `()`, `Option<T>`,
`Vec<T>`, tuples, `HashMap<K, V>` (entries in input order), structs
(fields by position), and enums (variants by name). -/

mutual

inductive Schema where
  | bool
  | uint (w : Nat)
  | chr
  | str
  | unit
  | option (s : Schema)
  | seq (s : Schema)
  | tuple (ss : List Schema)
  | map (k v : Schema)
  | sstruct (fields : List Schema)
  | enum1 (variants : List (Str × VKind))

/-- The kind of an enum variant, as the derived impls distinguish them:
unit, newtype (one payload), tuple variant (fixed arity), struct variant
(named fields by position). -/
inductive VKind where
  | unitk
  | newtypek (sc : Schema)
  | tuplek (ss : List Schema)
  | structk (fields : List Schema)

end

/-- Decoded / encoded values for the schemas above.  An enum value is its
variant tag plus an optional payload (`none` for a unit variant); the
serializer emits tuple and struct variants exactly as a newtype variant
wrapping the corresponding tuple / struct value would be emitted, so one
payload slot is faithful for all four kinds. -/
inductive Value where
  | bool (b : Bool)
  | uint (n : Nat)
  | chr (c : Char)
  | str (s : Str)
  | unitv
  | opt (v : Option Value)
  | list (vs : List Value)
  | tup (vs : List Value)
  | mapv (es : List (Value × Value))
  | structv (vs : List Value)
  | enumv (tag : Str) (payload : Option Value)

/-- Requests to the decode driver: a whole value of a schema, or one of the
`DelimiterSeparated` element loops (`SeqAccess::next_element_seed` for
`Vec`, the fixed-arity element sequences of tuples and structs, and the
`MapAccess` key/value loop). -/
inductive Req where
  | val (sc : Schema)
  | seqItems (sc : Schema) (first : Bool)
  | tupItems (ss : List Schema) (first : Bool)
  | structItems (ss : List Schema) (first : Bool)
  | mapItems (k v : Schema) (first : Bool)

/-- Results of the decode driver, by request kind. -/
inductive DRes where
  | val (v : Value)
  | items (vs : List Value)
  | entries (es : List (Value × Value))

/-- Variant lookup done by the derived `Deserialize` impl: the tag read
from the input is matched against the declared variant names. -/
def find_variant (variants : List (Str × VKind)) (tag : Str) : Option (Str × VKind) :=
  variants.find? (fun p => p.1 == tag)

/-- The `Enum::variant_seed` epilogue: if the next character is a `:` it is
consumed (`peek_char().map(|ch| ch == ':').unwrap_or(false)`), otherwise the
input is left as is. -/
def consume_variant_colon (st : DState) : DState :=
  match st.input with
  | ':' :: _ => shift_input_forward st 1
  | _ => st

/-- Schema-driven decode engine: the `Deserializer` trait impl of `de.rs`
together with the `DelimiterSeparated` `SeqAccess` / `MapAccess` loops,
driven by an explicit schema.  Structurally recursive on the fuel; fuel
exhaustion yields `Error.Message` (unreachable for the fuel supplied by
`record_from_str` on the inputs the claims exercise). -/
def decodeD : Nat → Req → DState → Except Error DRes × DState
  | 0, _, st => (Except.error Error.Message, st)
  | fuel + 1, req, st =>
    match req with
    | .val .bool =>
      -- deserialize_bool: visit_bool(parse_bool?)
      match parse_bool st with
      | (Except.ok b, st') => (Except.ok (DRes.val (Value.bool b)), st')
      | (Except.error e, st') => (Except.error e, st')
    | .val (.uint w) =>
      -- deserialize_u8/u16/u32/u64: visit(parse_unsigned?)
      match parse_unsigned w st with
      | (Except.ok n, st') => (Except.ok (DRes.val (Value.uint n)), st')
      | (Except.error e, st') => (Except.error e, st')
    | .val .chr =>
      -- deserialize_char: parse_string, require length 1
      match parse_string st with
      | (Except.ok s, st') =>
        match s with
        | [c] => (Except.ok (DRes.val (Value.chr c)), st')
        | _ => (Except.error Error.ExpectedChar, st')
      | (Except.error e, st') => (Except.error e, st')
    | .val .str =>
      -- deserialize_str / deserialize_string
      match parse_string st with
      | (Except.ok s, st') => (Except.ok (DRes.val (Value.str s)), st')
      | (Except.error e, st') => (Except.error e, st')
    | .val .unit =>
      -- deserialize_unit: require empty input
      if st.input.isEmpty then (Except.ok (DRes.val Value.unitv), st)
      else (Except.error Error.ExpectedEmpty, st)
    | .val (.option sc) =>
      -- deserialize_option
      if option_is_none st then (Except.ok (DRes.val (Value.opt none)), st)
      else
        match decodeD fuel (.val sc) st with
        | (Except.ok (DRes.val v), st') =>
          (Except.ok (DRes.val (Value.opt (some v))), st')
        | (Except.ok _, st') => (Except.error Error.Message, st')
        | (Except.error e, st') => (Except.error e, st')
    | .val (.seq sc) =>
      -- deserialize_seq: in_seq := true, visit_seq(DelimiterSeparated ','),
      -- in_seq := false (also on the error path, as the flag write follows
      -- the visit before the result is returned)
      match decodeD fuel (.seqItems sc true) { st with in_seq := true } with
      | (Except.ok (DRes.items vs), st') =>
        (Except.ok (DRes.val (Value.list vs)), { st' with in_seq := false })
      | (Except.ok _, st') => (Except.error Error.Message, { st' with in_seq := false })
      | (Except.error e, st') => (Except.error e, { st' with in_seq := false })
    | .val (.tuple ss) =>
      -- deserialize_tuple: same flag handling as deserialize_seq
      match decodeD fuel (.tupItems ss true) { st with in_seq := true } with
      | (Except.ok (DRes.items vs), st') =>
        (Except.ok (DRes.val (Value.tup vs)), { st' with in_seq := false })
      | (Except.ok _, st') => (Except.error Error.Message, { st' with in_seq := false })
      | (Except.error e, st') => (Except.error e, { st' with in_seq := false })
    | .val (.map k v) =>
      -- deserialize_map: in_map := true, visit_map(DelimiterSeparated ','),
      -- in_map := false
      match decodeD fuel (.mapItems k v true) { st with in_map := true } with
      | (Except.ok (DRes.entries es), st') =>
        (Except.ok (DRes.val (Value.mapv es)), { st' with in_map := false })
      | (Except.ok _, st') => (Except.error Error.Message, { st' with in_map := false })
      | (Except.error e, st') => (Except.error e, { st' with in_map := false })
    | .val (.sstruct fields) =>
      -- deserialize_struct: visit_seq(DelimiterSeparated ':'), flags untouched
      match decodeD fuel (.structItems fields true) st with
      | (Except.ok (DRes.items vs), st') =>
        (Except.ok (DRes.val (Value.structv vs)), st')
      | (Except.ok _, st') => (Except.error Error.Message, st')
      | (Except.error e, st') => (Except.error e, st')
    | .val (.enum1 variants) =>
      -- deserialize_enum → visit_enum(Enum): the variant tag is read via
      -- deserialize_identifier → deserialize_str (parse_string); the derived
      -- visitor rejects an unknown tag with a custom error; variant_seed then
      -- consumes one ':' if it is the next character; VariantAccess
      -- dispatches on the variant kind (tuple/struct variants delegate to
      -- deserialize_tuple / deserialize_struct)
      match parse_string st with
      | (Except.error e, st') => (Except.error e, st')
      | (Except.ok tag, st1) =>
        match find_variant variants tag with
        | none => (Except.error Error.Message, st1)
        | some (_, k) =>
          let st2 := consume_variant_colon st1
          match k with
          | VKind.unitk => (Except.ok (DRes.val (Value.enumv tag none)), st2)
          | VKind.newtypek sc =>
            match decodeD fuel (.val sc) st2 with
            | (Except.ok (DRes.val v), st3) =>
              (Except.ok (DRes.val (Value.enumv tag (some v))), st3)
            | (Except.ok _, st3) => (Except.error Error.Message, st3)
            | (Except.error e, st3) => (Except.error e, st3)
          | VKind.tuplek ss =>
            match decodeD fuel (.val (.tuple ss)) st2 with
            | (Except.ok (DRes.val v), st3) =>
              (Except.ok (DRes.val (Value.enumv tag (some v))), st3)
            | (Except.ok _, st3) => (Except.error Error.Message, st3)
            | (Except.error e, st3) => (Except.error e, st3)
          | VKind.structk fields =>
            match decodeD fuel (.val (.sstruct fields)) st2 with
            | (Except.ok (DRes.val v), st3) =>
              (Except.ok (DRes.val (Value.enumv tag (some v))), st3)
            | (Except.ok _, st3) => (Except.error Error.Message, st3)
            | (Except.error e, st3) => (Except.error e, st3)
    | .seqItems sc first =>
      -- SeqAccess::next_element_seed with delim ',', iterated by the Vec
      -- visitor until it returns None
      match st.input with
      | [] => (Except.ok (DRes.items []), st)
      | c :: _ =>
        if c = ':' then (Except.ok (DRes.items []), st)
        else
          match (if first then (Except.ok (), st)
                 else expect_delim ',' Error.ExpectedArrayComma st) with
          | (Except.error e, st1) => (Except.error e, st1)
          | (Except.ok _, st1) =>
            match decodeD fuel (.val sc) st1 with
            | (Except.error e, st2) => (Except.error e, st2)
            | (Except.ok (DRes.val v), st2) =>
              match decodeD fuel (.seqItems sc false) st2 with
              | (Except.ok (DRes.items vs), st3) =>
                (Except.ok (DRes.items (v :: vs)), st3)
              | (Except.ok _, st3) => (Except.error Error.Message, st3)
              | (Except.error e, st3) => (Except.error e, st3)
            | (Except.ok _, st2) => (Except.error Error.Message, st2)
    | .tupItems ss first =>
      -- next_element_seed with delim ',', called exactly once per tuple
      -- component by the derived visitor; a None answer with components
      -- still expected is an invalid_length custom error
      match ss with
      | [] => (Except.ok (DRes.items []), st)
      | sc :: ss' =>
        match st.input with
        | [] => (Except.error Error.Message, st)
        | c :: _ =>
          if c = ':' then (Except.error Error.Message, st)
          else
            match (if first then (Except.ok (), st)
                   else expect_delim ',' Error.ExpectedArrayComma st) with
            | (Except.error e, st1) => (Except.error e, st1)
            | (Except.ok _, st1) =>
              match decodeD fuel (.val sc) st1 with
              | (Except.error e, st2) => (Except.error e, st2)
              | (Except.ok (DRes.val v), st2) =>
                match decodeD fuel (.tupItems ss' false) st2 with
                | (Except.ok (DRes.items vs), st3) =>
                  (Except.ok (DRes.items (v :: vs)), st3)
                | (Except.ok _, st3) => (Except.error Error.Message, st3)
                | (Except.error e, st3) => (Except.error e, st3)
              | (Except.ok _, st2) => (Except.error Error.Message, st2)
    | .structItems ss first =>
      -- next_element_seed with delim ':' (deserialize_struct): the early
      -- None test `delim != ':' && peek == ':'` is vacuous, so only empty
      -- input stops the iteration
      match ss with
      | [] => (Except.ok (DRes.items []), st)
      | sc :: ss' =>
        match st.input with
        | [] => (Except.error Error.Message, st)
        | _ :: _ =>
          match (if first then (Except.ok (), st)
                 else expect_delim ':' Error.ExpectedArrayComma st) with
          | (Except.error e, st1) => (Except.error e, st1)
          | (Except.ok _, st1) =>
            match decodeD fuel (.val sc) st1 with
            | (Except.error e, st2) => (Except.error e, st2)
            | (Except.ok (DRes.val v), st2) =>
              match decodeD fuel (.structItems ss' false) st2 with
              | (Except.ok (DRes.items vs), st3) =>
                (Except.ok (DRes.items (v :: vs)), st3)
              | (Except.ok _, st3) => (Except.error Error.Message, st3)
              | (Except.error e, st3) => (Except.error e, st3)
            | (Except.ok _, st2) => (Except.error Error.Message, st2)
    | .mapItems k v first =>
      -- MapAccess::next_key_seed / next_value_seed, iterated by the map
      -- visitor until next_key_seed returns None
      match st.input with
      | [] => (Except.ok (DRes.entries []), st)
      | c :: _ =>
        if c = ':' then (Except.ok (DRes.entries []), st)
        else
          match (if first then (Except.ok (), st)
                 else expect_delim ',' Error.ExpectedMapComma st) with
          | (Except.error e, st1) => (Except.error e, st1)
          | (Except.ok _, st1) =>
            match get_next_nonescaped_char st1.input '=' with
            | none => (Except.error Error.ExpectedMapEquals, st1)
            | some len =>
              -- validate no unescaped comma before the equals
              if (match get_next_nonescaped_char st1.input ',' with
                  | some ci => decide (ci < len)
                  | none => false) then
                (Except.error Error.ExpectedMapEquals, st1)
              else
                match decodeD fuel (.val k) st1 with
                | (Except.error e, st2) => (Except.error e, st2)
                | (Except.ok (DRes.val kv), st2) =>
                  -- next_value_seed: consume the '=', locate the value
                  -- boundary, validate no unescaped '=' before it
                  match expect_delim '=' Error.ExpectedMapEquals st2 with
                  | (Except.error e, st3) => (Except.error e, st3)
                  | (Except.ok _, st3) =>
                    if (match get_next_nonescaped_char st3.input '=' with
                        | some ei =>
                          decide (ei < (get_next_nonescaped_char st3.input ',').getD
                            st3.input.length)
                        | none => false) then
                      (Except.error Error.ExpectedMapComma, st3)
                    else
                      match decodeD fuel (.val v) st3 with
                      | (Except.error e, st4) => (Except.error e, st4)
                      | (Except.ok (DRes.val vv), st4) =>
                        match decodeD fuel (.mapItems k v false) st4 with
                        | (Except.ok (DRes.entries es), st5) =>
                          (Except.ok (DRes.entries ((kv, vv) :: es)), st5)
                        | (Except.ok _, st5) => (Except.error Error.Message, st5)
                        | (Except.error e, st5) => (Except.error e, st5)
                      | (Except.ok _, st4) => (Except.error Error.Message, st4)
                | (Except.ok _, st2) => (Except.error Error.Message, st2)

mutual

/-- Size of a schema, bounding the depth of fuel consumed by nesting. -/
def schemaWeight : Schema → Nat
  | .bool => 1
  | .uint _ => 1
  | .chr => 1
  | .str => 1
  | .unit => 1
  | .option s => schemaWeight s + 1
  | .seq s => schemaWeight s + 1
  | .tuple ss => schemaListWeight ss + 1
  | .map k v => schemaWeight k + schemaWeight v + 1
  | .sstruct ss => schemaListWeight ss + 1
  | .enum1 vs => variantsWeight vs + 1

/-- Combined size of a list of schemas. -/
def schemaListWeight : List Schema → Nat
  | [] => 1
  | s :: ss => schemaWeight s + schemaListWeight ss

/-- Size of a variant kind. -/
def vkindWeight : VKind → Nat
  | .unitk => 1
  | .newtypek sc => schemaWeight sc + 1
  | .tuplek ss => schemaListWeight ss + 1
  | .structk ss => schemaListWeight ss + 1

/-- Combined size of an enum's variant list. -/
def variantsWeight : List (Str × VKind) → Nat
  | [] => 1
  | v :: vs => vkindWeight v.2 + variantsWeight vs

end

/-- Fuel supplied by the entry point: generous in the input length and the
schema size; ample for every input the claims exercise. -/
def recordFuel (s : Str) (sc : Schema) : Nat :=
  2 * s.length + 2 * schemaWeight sc + 16

/-- Mirror of `record_from_str` in `de.rs`: deserialize per the schema, then
require the remaining input to be empty, failing with `TrailingCharacters`
otherwise. -/
def record_from_str (sc : Schema) (s : Str) : Except Error Value :=
  match decodeD (recordFuel s sc) (Req.val sc) { input := s, in_seq := false, in_map := false } with
  | (Except.ok (DRes.val v), st') =>
    if st'.input.isEmpty then Except.ok v else Except.error Error.TrailingCharacters
  | (Except.ok _, _) => Except.error Error.Message
  | (Except.error e, _) => Except.error e

/-- The character of a decimal digit (`b'0' + d`). -/
def digitChar (d : Nat) : Char := Char.ofNat (48 + d)

/-- Decimal numeral of `n`, most significant digit first, with an explicit
recursion bound (any fuel above `n` yields the numeral; `natToDec` supplies
`n + 1`).  This is the output of Rust's `u64::to_string`. -/
def natToDecAux : Nat → Nat → Str
  | 0, _ => []
  | fuel + 1, n =>
    if n < 10 then [digitChar n]
    else natToDecAux fuel (n / 10) ++ [digitChar (n % 10)]

/-- Decimal numeral of `n` (`u64::to_string`): `"0"` for zero, no leading
zeros otherwise. -/
def natToDec (n : Nat) : Str := natToDecAux (n + 1) n

/-- Mirror of `struct Serializer` in `ser.rs`: output buffer plus the two
context flags. -/
structure SState where
  output : Str
  in_seq : Bool
  in_map : Bool
  deriving Repr, DecidableEq

/-- Mirror of `Serializer::escape_str`, with the flags passed explicitly:
backslash first ("otherwise we will double escape the other characters"),
then colon, then newline, then comma only when `in_seq || in_map`, then
equals only when `in_map`.  Tabs and carriage returns are not replaced. -/
def escape_str (sq mp : Bool) (v : Str) : Str :=
  let v := replace1 '\\' ['\\', '\\'] v
  let v := replace1 ':' ['\\', ':'] v
  let v := replace1 '\n' ['\\', 'n'] v
  let v := if sq || mp then replace1 ',' ['\\', ','] v else v
  let v := if mp then replace1 '=' ['\\', '='] v else v
  v

mutual

/-- Schema-driven encode engine: the `Serializer` trait impl of `ser.rs`.
Encoding the supported `Value` trees never fails (errors arise only for
bytes and floats, which `Value` does not contain), so the `Result` wrapper
of the source is dropped. -/
def encodeValue : Value → SState → SState
  | .bool b, st =>
    { st with output := st.output ++ (if b then "true".toList else "false".toList) }
  | .uint n, st =>
    -- serialize_u8/u16/u32/u64 → u64::to_string
    { st with output := st.output ++ natToDec n }
  | .chr c, st =>
    -- serialize_char: serialize_str of the one-character string
    { st with output := st.output ++ escape_str st.in_seq st.in_map [c] }
  | .str s, st =>
    { st with output := st.output ++ escape_str st.in_seq st.in_map s }
  | .unitv, st => st
  | .opt none, st => st
  | .opt (some v), st => encodeValue v st
  | .list vs, st =>
    -- serialize_seq sets in_seq; SerializeSeq::end clears it
    let st1 := encodeElems vs 0 { st with in_seq := true }
    { st1 with in_seq := false }
  | .tup vs, st =>
    -- serialize_tuple: same bookkeeping as sequences
    let st1 := encodeElems vs 0 { st with in_seq := true }
    { st1 with in_seq := false }
  | .mapv es, st =>
    -- serialize_map sets in_map; SerializeMap::end clears it
    let st1 := encodeEntries es 0 { st with in_map := true }
    { st1 with in_map := false }
  | .structv vs, st =>
    -- serialize_struct: fields ':'-separated, context flags untouched
    encodeFields vs 0 st
  | .enumv tag none, st =>
    -- serialize_unit_variant: serialize_str of the tag, nothing else
    { st with output := st.output ++ escape_str st.in_seq st.in_map tag }
  | .enumv tag (some v), st =>
    -- serialize_newtype/tuple/struct_variant: the tag (a str write under
    -- the current flags), a literal ':', then the payload; tuple and
    -- struct variants do exactly the flag/counter bookkeeping that
    -- serializing the corresponding tuple / struct value does
    let st1 := { st with output := st.output ++ escape_str st.in_seq st.in_map tag }
    encodeValue v { st1 with output := st1.output ++ [':'] }

/-- `SerializeSeq::serialize_element`: a leading `,` unless the element
counter is still 0, then the element; the counter advances for every
element, absent or not. -/
def encodeElems : List Value → Nat → SState → SState
  | [], _, st => st
  | v :: vs, i, st =>
    let st1 := if i > 0 then { st with output := st.output ++ [','] } else st
    encodeElems vs (i + 1) (encodeValue v st1)

/-- `SerializeMap::serialize_key` / `serialize_value`: a leading `,` unless
the entry counter is still 0, the key, a literal `=`, the value. -/
def encodeEntries : List (Value × Value) → Nat → SState → SState
  | [], _, st => st
  | (k, v) :: es, i, st =>
    let st1 := if i > 0 then { st with output := st.output ++ [','] } else st
    let st2 := encodeValue k st1
    let st3 := encodeValue v { st2 with output := st2.output ++ ['='] }
    encodeEntries es (i + 1) st3

/-- `SerializeStruct::serialize_field`: a leading `:` unless the field
counter is still 0, then the field value. -/
def encodeFields : List Value → Nat → SState → SState
  | [], _, st => st
  | v :: vs, i, st =>
    let st1 := if i > 0 then { st with output := st.output ++ [':'] } else st
    encodeFields vs (i + 1) (encodeValue v st1)

end

/-- Mirror of `record_to_string` in `ser.rs` (always `Ok` on the supported
values, so the `Result` wrapper is dropped). -/
def record_to_string (v : Value) : Str :=
  (encodeValue v { output := [], in_seq := false, in_map := false }).output

/-! Spec-side definitions, written from the claims' wording, to be compared
with the definitions above that are translated from the source. -/

/-- C2's counting rule, as the claim states it: an occurrence of `ch` at
index `i` counts iff `i = 0` or the character at `i - 1` is not a
backslash. -/
def claimCountsAt (s : Str) (ch : Char) (i : Nat) : Bool :=
  s.get? i == some ch && (decide (i = 0) || s.get? (i - 1) != some '\\')

/-- The unescaped-occurrence search as C2 describes it: the leftmost
occurrence that counts under `claimCountsAt`. -/
def find_unescaped_claim (s : Str) (ch : Char) : Option Nat :=
  (List.range s.length).find? (claimCountsAt s ch)

/-- The unescape pipeline in the order C3 claims: structural escapes
`\:`, `\,`, `\=` first, then removal of an escaped trailing newline, then
the non-printables `\n`, `\r`, `\t`, and the collapse of `\\` last. -/
def unescapeClaimedOrder (raw : Str) : Str :=
  let s := replace2 '\\' ':' [':'] raw
  let s := replace2 '\\' ',' [','] s
  let s := replace2 '\\' '=' ['='] s
  let s := replace2 '\\' '\n' [] s
  let s := replace2 '\\' 'n' ['\n'] s
  let s := replace2 '\\' 'r' ['\r'] s
  let s := replace2 '\\' 't' ['\t'] s
  replace2 '\\' '\\' ['\\'] s

/-- The unescape pipeline in the source's actual order (the amended C3):
structural escapes `\:`, `\,`, `\=`, then the collapse of `\\`, then removal
of an escaped trailing newline, then the non-printables `\n`, `\r`, `\t`. -/
def unescapeAmendedOrder (raw : Str) : Str :=
  let s := replace2 '\\' ':' [':'] raw
  let s := replace2 '\\' ',' [','] s
  let s := replace2 '\\' '=' ['='] s
  let s := replace2 '\\' '\\' ['\\'] s
  let s := replace2 '\\' '\n' [] s
  let s := replace2 '\\' 'n' ['\n'] s
  let s := replace2 '\\' 'r' ['\r'] s
  replace2 '\\' 't' ['\t'] s

/-- The escape pipeline in the order and conditions C4 claims: backslash
first, then colon, then newline, then comma iff in a sequence or map
context, then equals iff in a map context; tabs and carriage returns are
not escaped. -/
def escapeClaimedOrder (sq mp : Bool) (v : Str) : Str :=
  let v := replace1 '\\' ['\\', '\\'] v
  let v := replace1 ':' ['\\', ':'] v
  let v := replace1 '\n' ['\\', 'n'] v
  let v := if sq || mp then replace1 ',' ['\\', ','] v else v
  if mp then replace1 '=' ['\\', '='] v else v

/-- C5's none-condition, as the claim states it: the remaining input is
empty, or its very next character is a delimiter active in the current
context (`:` always; `,` when `in_seq` or `in_map`; `=` when `in_map`). -/
def noneClaim (st : DState) : Prop :=
  st.input = [] ∨
    ∃ c, st.input.head? = some c ∧
      (c = ':' ∨ (c = ',' ∧ (st.in_seq = true ∨ st.in_map = true)) ∨
        (c = '=' ∧ st.in_map = true))

/-- The reserved characters of C1: backslash, colon, comma, equals, newline,
carriage return, tab. -/
def reserved : Str := ['\\', ':', ',', '=', '\n', '\r', '\t']

/-- A string containing no reserved character. -/
def GoodStr (s : Str) : Prop := ∀ c ∈ s, c ∉ reserved

/-- The on-wire text of the non-first elements of a sequence of plain
strings: each preceded by a comma. -/
def commaTail (ss : List Str) : Str :=
  ss.foldr (fun s acc => ',' :: (s ++ acc)) []

/-- The on-wire text of a comma-separated sequence of plain strings. -/
def joinComma : List Str → Str
  | [] => []
  | s :: ss => s ++ commaTail ss

/-- The on-wire text of the non-first fields of a struct: each preceded by
a colon. -/
def colonTail (ss : List Str) : Str :=
  ss.foldr (fun s acc => ':' :: (s ++ acc)) []

/-- The on-wire text of a colon-separated struct field list. -/
def joinColon : List Str → Str
  | [] => []
  | s :: ss => s ++ colonTail ss

/-- Numeric value of a digit string under left-to-right accumulation with
initial accumulator `acc` (the abstract, overflow-free counterpart of
`parse_unsigned`'s loop). -/
def decValAcc (acc : Nat) : Str → Nat
  | [] => acc
  | c :: r => decValAcc (acc * 10 + digitVal c) r

/-- A delimiter character that is active under the context flags: `:`
always, `,` when `in_seq || in_map`, `=` when `in_map`. -/
def ActiveDelim (sq mp : Bool) (d : Char) : Prop :=
  d = ':' ∨ ((sq || mp) = true ∧ d = ',') ∨ (mp = true ∧ d = '=')

/-- The on-wire text of a scalar value: what the serializer emits for it at
top level (and, for reserved-free strings, in any context). -/
def scalarText : Value → Str
  | .bool b => if b then "true".toList else "false".toList
  | .uint n => natToDec n
  | .chr c => [c]
  | .str s => s
  | _ => []

/-- The on-wire text of one map entry over scalar keys and values. -/
def entryText (e : Value × Value) : Str :=
  scalarText e.1 ++ '=' :: scalarText e.2

/-- The flat scalar (schema, value) pairs of the amended C1 round-trip
class: booleans; unsigned integers that fit their width; characters and
non-empty strings free of reserved characters. -/
inductive ScalarOK : Schema → Value → Prop where
  | bool (b : Bool) : ScalarOK .bool (.bool b)
  | uint (w n : Nat) (h : n < 2 ^ w) : ScalarOK (.uint w) (.uint n)
  | chr (c : Char) (h : GoodStr [c]) : ScalarOK .chr (.chr c)
  | str (s : Str) (h0 : s ≠ []) (h1 : GoodStr s) : ScalarOK .str (.str s)

/-! Helper lemmas. -/

theorem replace1_eq_of_not_mem (p : Char) (rep : Str) :
    ∀ s : Str, p ∉ s → replace1 p rep s = s
  | [], _ => rfl
  | c :: rest, h => by
    have hc : ¬c = p := fun hcp => h (hcp ▸ List.mem_cons_self c rest)
    have ih := replace1_eq_of_not_mem p rep rest
      (fun hm => h (List.mem_cons_of_mem c hm))
    simp only [replace1, if_neg hc, ih]

theorem replace2_eq_of_not_mem (p q : Char) (rep : Str) :
    ∀ s : Str, p ∉ s → replace2 p q rep s = s
  | [], _ => rfl
  | [_], _ => rfl
  | c :: d :: rest, h => by
    have hc : ¬(c = p ∧ d = q) :=
      fun hpq => h (hpq.1 ▸ List.mem_cons_self c (d :: rest))
    have ih := replace2_eq_of_not_mem p q rep (d :: rest)
      (fun hm => h (List.mem_cons_of_mem c hm))
    simp only [replace2, if_neg hc, ih]

theorem escape_str_eq_self (sq mp : Bool) (v : Str)
    (h : ∀ c ∈ v, c ≠ '\\' ∧ c ≠ ':' ∧ c ≠ '\n' ∧ c ≠ ',' ∧ c ≠ '=') :
    escape_str sq mp v = v := by
  have h1 : '\\' ∉ v := fun hm => (h _ hm).1 rfl
  have h2 : ':' ∉ v := fun hm => (h _ hm).2.1 rfl
  have h3 : '\n' ∉ v := fun hm => (h _ hm).2.2.1 rfl
  have h4 : ',' ∉ v := fun hm => (h _ hm).2.2.2.1 rfl
  have h5 : '=' ∉ v := fun hm => (h _ hm).2.2.2.2 rfl
  simp only [escape_str, replace1_eq_of_not_mem _ _ _ h1,
    replace1_eq_of_not_mem _ _ _ h2, replace1_eq_of_not_mem _ _ _ h3]
  cases sq <;> cases mp <;>
    simp [replace1_eq_of_not_mem _ _ _ h4, replace1_eq_of_not_mem _ _ _ h5]

theorem digitChar_isDigit {d : Nat} (h : d < 10) : (digitChar d).isDigit = true := by
  have hd : d = 0 ∨ d = 1 ∨ d = 2 ∨ d = 3 ∨ d = 4 ∨ d = 5 ∨ d = 6 ∨ d = 7 ∨ d = 8 ∨
      d = 9 := by omega
  rcases hd with rfl | rfl | rfl | rfl | rfl | rfl | rfl | rfl | rfl | rfl <;> decide

theorem digitVal_digitChar {d : Nat} (h : d < 10) : digitVal (digitChar d) = d := by
  have hd : d = 0 ∨ d = 1 ∨ d = 2 ∨ d = 3 ∨ d = 4 ∨ d = 5 ∨ d = 6 ∨ d = 7 ∨ d = 8 ∨
      d = 9 := by omega
  rcases hd with rfl | rfl | rfl | rfl | rfl | rfl | rfl | rfl | rfl | rfl <;> decide

theorem natToDecAux_digits : ∀ (fuel n : Nat), ∀ c ∈ natToDecAux fuel n, c.isDigit = true
  | 0, _ => by intro c hc; simp [natToDecAux] at hc
  | fuel + 1, n => by
    intro c hc
    rw [natToDecAux] at hc
    split at hc
    · rename_i h10
      simp only [List.mem_singleton] at hc
      exact hc ▸ digitChar_isDigit h10
    · rcases List.mem_append.mp hc with h | h
      · exact natToDecAux_digits fuel (n / 10) c h
      · simp only [List.mem_singleton] at h
        exact h ▸ digitChar_isDigit (Nat.mod_lt n (by omega))

theorem natToDecAux_ne_nil (fuel n : Nat) : natToDecAux (fuel + 1) n ≠ [] := by
  rw [natToDecAux]
  split
  · simp
  · simp

theorem natToDec_ne_nil (n : Nat) : natToDec n ≠ [] := natToDecAux_ne_nil n n

theorem natToDec_digits (n : Nat) : ∀ c ∈ natToDec n, c.isDigit = true :=
  natToDecAux_digits (n + 1) n

theorem decValAcc_nil (acc : Nat) : decValAcc acc [] = acc := rfl

theorem decValAcc_cons (acc : Nat) (c : Char) (r : Str) :
    decValAcc acc (c :: r) = decValAcc (acc * 10 + digitVal c) r := rfl

theorem decValAcc_append : ∀ (xs : Str) (acc : Nat) (ys : Str),
    decValAcc acc (xs ++ ys) = decValAcc (decValAcc acc xs) ys
  | [], _, _ => rfl
  | c :: r, acc, ys => decValAcc_append r (acc * 10 + digitVal c) ys

theorem decValAcc_le (acc : Nat) : ∀ ds : Str, acc ≤ decValAcc acc ds
  | [] => Nat.le_refl _
  | c :: r =>
    Nat.le_trans (by omega) (decValAcc_le (acc * 10 + digitVal c) r)

theorem natToDecAux_val : ∀ (fuel n acc : Nat), n < fuel →
    decValAcc acc (natToDecAux fuel n) =
      acc * 10 ^ (natToDecAux fuel n).length + n
  | 0, n, _, h => absurd h (Nat.not_lt_zero n)
  | fuel + 1, n, acc, h => by
    rw [natToDecAux]
    split
    · rename_i h10
      simp [decValAcc_cons, decValAcc_nil, digitVal_digitChar h10]
    · rename_i h10
      have hrec := natToDecAux_val fuel (n / 10) acc (by omega)
      rw [decValAcc_append, hrec]
      simp only [decValAcc_cons, decValAcc_nil, List.length_append, List.length_singleton,
        digitVal_digitChar (Nat.mod_lt n (by omega))]
      rw [pow_succ]
      have hdm := Nat.div_add_mod n 10
      ring_nf
      omega

theorem natToDec_val (n : Nat) : decValAcc 0 (natToDec n) = n := by
  have h := natToDecAux_val (n + 1) n 0 (by omega)
  simpa [natToDec] using h

theorem isDigit_not_reserved {c : Char} (h : c.isDigit = true) : c ∉ reserved := by
  intro hm
  simp only [reserved, List.mem_cons, List.not_mem_nil, or_false] at hm
  rcases hm with rfl | rfl | rfl | rfl | rfl | rfl | rfl <;> exact absurd h (by decide)

theorem parse_loop_chunk (w : Nat) : ∀ (ds t : Str) (acc : Nat),
    (∀ c ∈ ds, c.isDigit = true) →
    (t = [] ∨ ∃ c t2, t = c :: t2 ∧ c.isDigit = false) →
    decValAcc acc ds < 2 ^ w →
    parse_unsigned_loop w acc (ds ++ t) = (decValAcc acc ds, t)
  | [], t, acc, _, ht, _ => by
    rcases ht with rfl | ⟨c, t2, rfl, hc⟩
    · rfl
    · simp [parse_unsigned_loop, hc, decValAcc_nil]
  | d :: ds, t, acc, hds, ht, hlt => by
    have hd : d.isDigit = true := hds d (List.mem_cons_self _ _)
    simp only [decValAcc_cons] at hlt
    have hle : acc * 10 + digitVal d ≤ decValAcc (acc * 10 + digitVal d) ds :=
      decValAcc_le _ ds
    rw [List.cons_append, parse_unsigned_loop, if_pos hd,
      Nat.mod_eq_of_lt (by omega)]
    simp only [decValAcc_cons]
    exact parse_loop_chunk w ds t (acc * 10 + digitVal d)
      (fun c hc => hds c (List.mem_cons_of_mem d hc)) ht hlt

theorem decode_uint_chunk (fuel w n : Nat) (hn : n < 2 ^ w) (sq mp : Bool) (t : Str)
    (ht : t = [] ∨ ∃ c t2, t = c :: t2 ∧ c.isDigit = false) :
    decodeD (fuel + 1) (Req.val (Schema.uint w))
        { input := natToDec n ++ t, in_seq := sq, in_map := mp } =
      (Except.ok (DRes.val (Value.uint n)), { input := t, in_seq := sq, in_map := mp }) := by
  obtain ⟨c, ds, hcds⟩ : ∃ c ds, natToDec n = c :: ds := by
    rcases hx : natToDec n with _ | ⟨c, ds⟩
    · exact absurd hx (natToDec_ne_nil n)
    · exact ⟨c, ds, rfl⟩
  have hdig : c.isDigit = true := natToDec_digits n c (by rw [hcds]; exact List.mem_cons_self c ds)
  have hval : decValAcc (digitVal c) ds = n := by
    have h0 := natToDec_val n
    rw [hcds] at h0
    simpa [decValAcc_cons] using h0
  have hpu : parse_unsigned w { input := natToDec n ++ t, in_seq := sq, in_map := mp } =
      (Except.ok n, { input := t, in_seq := sq, in_map := mp }) := by
    rw [hcds, List.cons_append]
    unfold parse_unsigned
    simp only [next_char]
    rw [if_pos hdig,
      parse_loop_chunk w ds t (digitVal c)
        (fun c2 hc2 => natToDec_digits n c2 (by rw [hcds]; exact List.mem_cons_of_mem c hc2))
        ht (hval ▸ hn),
      hval]
  simp only [decodeD]
  rw [hpu]

theorem shift_input_forward_suffix (st : DState) (n : Nat) :
    (shift_input_forward st n).input <:+ st.input :=
  List.drop_suffix n st.input

theorem next_char_suffix (st : DState) : ((next_char st).2).input <:+ st.input := by
  obtain ⟨inp, sq, mp⟩ := st
  cases inp with
  | nil => exact List.suffix_refl _
  | cons c rest => exact List.suffix_cons c rest

theorem expect_delim_suffix (d : Char) (e : Error) (st : DState) :
    ((expect_delim d e st).2).input <:+ st.input := by
  unfold expect_delim
  split
  · rename_i c st' heq
    have h := next_char_suffix st
    rw [heq] at h
    split <;> exact h
  · rename_i e0 st' heq
    have h := next_char_suffix st
    rw [heq] at h
    exact h

theorem first_step_suffix (first : Bool) (d : Char) (e : Error) (st : DState) :
    (((if first then (Except.ok (), st) else expect_delim d e st) :
        Except Error Unit × DState).2).input <:+ st.input := by
  cases first with
  | true => exact List.suffix_refl _
  | false => exact expect_delim_suffix d e st

theorem parse_bool_suffix (st : DState) : ((parse_bool st).2).input <:+ st.input := by
  unfold parse_bool
  split
  · exact shift_input_forward_suffix st 4
  · split
    · exact shift_input_forward_suffix st 5
    · exact List.suffix_refl _

theorem parse_unsigned_loop_suffix (w : Nat) :
    ∀ (acc : Nat) (s : Str), (parse_unsigned_loop w acc s).2 <:+ s
  | _, [] => List.suffix_refl _
  | acc, c :: rest => by
    rw [parse_unsigned_loop]
    split
    · exact (parse_unsigned_loop_suffix w _ rest).trans (List.suffix_cons c rest)
    · exact List.suffix_refl _

theorem parse_unsigned_suffix (w : Nat) (st : DState) :
    ((parse_unsigned w st).2).input <:+ st.input := by
  unfold parse_unsigned
  split
  · rename_i e st' heq
    have h := next_char_suffix st
    rw [heq] at h
    exact h
  · rename_i c st' heq
    have h := next_char_suffix st
    rw [heq] at h
    split
    · split
      rename_i n rest' heq2
      have h2 : rest' <:+ st'.input := by
        have := parse_unsigned_loop_suffix w (digitVal c) st'.input
        rw [heq2] at this
        exact this
      exact h2.trans h
    · exact h

theorem parse_string_suffix (st : DState) :
    ((parse_string st).2).input <:+ st.input :=
  shift_input_forward_suffix st _

theorem nonescapedFrom_eq_some (ch : Char) :
    ∀ (rest : Str) (prev : Char) (b i : Nat),
      nonescapedFrom ch prev b rest = some i →
      ∃ j, i = b + j ∧ rest.get? j = some ch ∧ (prev :: rest).get? j ≠ some '\\' ∧
        ∀ j', j' < j → rest.get? j' = some ch → (prev :: rest).get? j' = some '\\'
  | [], _, _, _, h => by simp [nonescapedFrom] at h
  | c :: rest, prev, b, i, h => by
    by_cases hc : c = ch ∧ prev ≠ '\\'
    · rw [nonescapedFrom, if_pos hc] at h
      obtain rfl : b = i := by injection h
      exact ⟨0, by omega, by simp [hc.1], by simpa using hc.2,
        fun j' hj' _ => absurd hj' (Nat.not_lt_zero _)⟩
    · rw [nonescapedFrom, if_neg hc] at h
      obtain ⟨j, hj, hch, hpr, hmin⟩ := nonescapedFrom_eq_some ch rest c (b + 1) i h
      refine ⟨j + 1, by omega, by simpa using hch, by simpa using hpr, ?_⟩
      intro j' hj' hch'
      cases j' with
      | zero =>
        simp only [List.get?_cons_zero, Option.some.injEq] at hch'
        have hprev : prev = '\\' := by
          by_contra hne
          exact hc ⟨hch', hne⟩
        simp [hprev]
      | succ j'' =>
        exact hmin j'' (by omega) (by simpa using hch')

theorem nonescapedFrom_eq_none (ch : Char) :
    ∀ (rest : Str) (prev : Char) (b : Nat),
      nonescapedFrom ch prev b rest = none →
      ∀ j, rest.get? j = some ch → (prev :: rest).get? j = some '\\'
  | [], _, _, _ => by intro j hj; simp at hj
  | c :: rest, prev, b, h => by
    by_cases hc : c = ch ∧ prev ≠ '\\'
    · rw [nonescapedFrom, if_pos hc] at h
      exact absurd h (by simp)
    · rw [nonescapedFrom, if_neg hc] at h
      intro j hj
      cases j with
      | zero =>
        simp only [List.get?_cons_zero, Option.some.injEq] at hj
        have hprev : prev = '\\' := by
          by_contra hne
          exact hc ⟨hj, hne⟩
        simp [hprev]
      | succ j' =>
        exact nonescapedFrom_eq_none ch rest c (b + 1) h j' (by simpa using hj)

theorem goodStr_chars {s : Str} (h : GoodStr s) :
    ∀ c ∈ s, c ≠ '\\' ∧ c ≠ ':' ∧ c ≠ '\n' ∧ c ≠ ',' ∧ c ≠ '=' := by
  intro c hc
  have hr := h c hc
  simp only [reserved, List.mem_cons, List.mem_singleton, not_or] at hr
  exact ⟨hr.1, hr.2.1, hr.2.2.2.2.1, hr.2.2.1, hr.2.2.2.1⟩

theorem goodStr_not_mem {s : Str} (h : GoodStr s) {c : Char} (hc : c ∈ reserved) :
    c ∉ s :=
  fun hm => h c hm hc

theorem nonescapedFrom_none_of_not_mem (ch : Char) :
    ∀ (rest : Str) (prev : Char) (b : Nat), ch ∉ rest →
      nonescapedFrom ch prev b rest = none
  | [], _, _, _ => rfl
  | c :: rest, prev, b, h => by
    have hc : ¬(c = ch ∧ prev ≠ '\\') :=
      fun hcc => h (hcc.1 ▸ List.mem_cons_self c rest)
    rw [nonescapedFrom, if_neg hc]
    exact nonescapedFrom_none_of_not_mem ch rest c (b + 1)
      (fun hm => h (List.mem_cons_of_mem c hm))

theorem gnnc_none_of_not_mem {s : Str} {ch : Char} (h : ch ∉ s) :
    get_next_nonescaped_char s ch = none := by
  cases s with
  | nil => rfl
  | cons c rest =>
    exact nonescapedFrom_none_of_not_mem ch rest c 1
      (fun hm => h (List.mem_cons_of_mem c hm))

theorem nonescapedFrom_append (d : Char) (rest : Str) :
    ∀ (s1 : Str) (prev : Char) (b : Nat), d ∉ s1 → '\\' ∉ s1 → prev ≠ '\\' →
      nonescapedFrom d prev b (s1 ++ d :: rest) = some (b + s1.length)
  | [], prev, b, _, _, hprev => by
    rw [List.nil_append, nonescapedFrom, if_pos (And.intro rfl hprev)]
    simp
  | c :: s1, prev, b, h1, h2, _ => by
    have hc : ¬(c = d ∧ prev ≠ '\\') :=
      fun hcd => h1 (hcd.1 ▸ List.mem_cons_self c s1)
    have hcbs : c ≠ '\\' := fun hx => h2 (hx ▸ List.mem_cons_self c s1)
    rw [List.cons_append, nonescapedFrom, if_neg hc,
      nonescapedFrom_append d rest s1 c (b + 1)
        (fun hm => h1 (List.mem_cons_of_mem c hm))
        (fun hm => h2 (List.mem_cons_of_mem c hm)) hcbs]
    simp only [List.length_cons]
    congr 1
    omega

theorem gnnc_append (d : Char) (s1 rest : Str) (h0 : s1 ≠ []) (h1 : d ∉ s1)
    (h2 : '\\' ∉ s1) :
    get_next_nonescaped_char (s1 ++ d :: rest) d = some s1.length := by
  cases s1 with
  | nil => exact absurd rfl h0
  | cons c s1' =>
    have hcbs : c ≠ '\\' := fun hx => h2 (hx ▸ List.mem_cons_self c s1')
    rw [List.cons_append, get_next_nonescaped_char,
      nonescapedFrom_append d rest s1' c 1
        (fun hm => h1 (List.mem_cons_of_mem c hm))
        (fun hm => h2 (List.mem_cons_of_mem c hm)) hcbs]
    simp only [List.length_cons]
    congr 1
    omega

theorem parse_string_good_all (sq mp : Bool) (s : Str) (h : GoodStr s) :
    parse_string { input := s, in_seq := sq, in_map := mp } =
      (Except.ok s, { input := [], in_seq := sq, in_map := mp }) := by
  have hbs : '\\' ∉ s := goodStr_not_mem h (by simp [reserved])
  have hcolon : ':' ∉ s := goodStr_not_mem h (by simp [reserved])
  have hcomma : ',' ∉ s := goodStr_not_mem h (by simp [reserved])
  have heqs : '=' ∉ s := goodStr_not_mem h (by simp [reserved])
  have hidx : get_next_delimiter_idx { input := s, in_seq := sq, in_map := mp } = none := by
    simp only [get_next_delimiter_idx, gnnc_none_of_not_mem hcolon,
      gnnc_none_of_not_mem hcomma, gnnc_none_of_not_mem heqs]
    cases sq <;> cases mp <;> simp [optMin]
  simp only [parse_string, hidx, Option.getD_none, List.take_length,
    replace2_eq_of_not_mem _ _ _ s hbs, List.drop_length, shift_input_forward]

theorem parse_string_chunk (s1 t : Str) (h0 : s1 ≠ []) (h1 : GoodStr s1)
    (ht : t = [] ∨ ∃ t2, t = ',' :: t2) (ht2 : ':' ∉ t) :
    parse_string { input := s1 ++ t, in_seq := true, in_map := false } =
      (Except.ok s1, { input := t, in_seq := true, in_map := false }) := by
  have hbs : '\\' ∉ s1 := goodStr_not_mem h1 (by simp [reserved])
  have hcolon : ':' ∉ s1 := goodStr_not_mem h1 (by simp [reserved])
  have hcomma : ',' ∉ s1 := goodStr_not_mem h1 (by simp [reserved])
  have hcolon2 : ':' ∉ s1 ++ t := by
    intro hm
    rcases List.mem_append.mp hm with hm | hm
    · exact hcolon hm
    · exact ht2 hm
  rcases ht with rfl | ⟨t2, rfl⟩
  · rw [List.append_nil]
    exact parse_string_good_all true false s1 h1
  · have hidx : get_next_delimiter_idx
        { input := s1 ++ ',' :: t2, in_seq := true, in_map := false } =
        some s1.length := by
      simp [get_next_delimiter_idx, gnnc_none_of_not_mem hcolon2,
        gnnc_append ',' s1 t2 h0 hcomma hbs, optMin]
    simp only [parse_string, hidx, Option.getD_some, List.take_left,
      replace2_eq_of_not_mem _ _ _ s1 hbs, shift_input_forward, List.drop_left]

theorem decode_str_chunk (fuel : Nat) (s1 t : Str) (h0 : s1 ≠ []) (h1 : GoodStr s1)
    (ht : t = [] ∨ ∃ t2, t = ',' :: t2) (ht2 : ':' ∉ t) :
    decodeD (fuel + 1) (Req.val Schema.str) { input := s1 ++ t, in_seq := true, in_map := false } =
      (Except.ok (DRes.val (Value.str s1)), { input := t, in_seq := true, in_map := false }) := by
  simp only [decodeD]
  rw [parse_string_chunk s1 t h0 h1 ht ht2]

theorem mem_commaTail {c : Char} :
    ∀ {ss : List Str}, c ∈ commaTail ss → c = ',' ∨ ∃ s ∈ ss, c ∈ s := by
  intro ss
  induction ss with
  | nil => intro h; simp [commaTail] at h
  | cons s ss ih =>
    intro h
    simp only [commaTail, List.foldr_cons, List.mem_cons, List.mem_append] at h
    rcases h with h | h
    · exact Or.inl h
    · rcases h with h | h
      · exact Or.inr ⟨s, List.mem_cons_self s ss, h⟩
      · rcases ih h with h' | ⟨s', hs', hc'⟩
        · exact Or.inl h'
        · exact Or.inr ⟨s', List.mem_cons_of_mem s hs', hc'⟩

theorem colon_not_mem_commaTail {ss : List Str} (h : ∀ s ∈ ss, s ≠ [] ∧ GoodStr s) :
    ':' ∉ commaTail ss := by
  intro hm
  rcases mem_commaTail hm with h' | ⟨s, hs, hc⟩
  · exact absurd h' (by decide)
  · exact (h s hs).2 ':' hc (by simp [reserved])

theorem commaTail_shape (ss : List Str) :
    commaTail ss = [] ∨ ∃ t2, commaTail ss = ',' :: t2 := by
  cases ss with
  | nil => exact Or.inl rfl
  | cons s ss => exact Or.inr ⟨s ++ commaTail ss, rfl⟩

theorem decode_seq_tail :
    ∀ (ss : List Str), (∀ s ∈ ss, s ≠ [] ∧ GoodStr s) →
      ∀ fuel, ss.length + 2 ≤ fuel →
      decodeD fuel (Req.seqItems Schema.str false)
          { input := commaTail ss, in_seq := true, in_map := false } =
        (Except.ok (DRes.items (ss.map Value.str)),
          { input := [], in_seq := true, in_map := false }) := by
  intro ss
  induction ss with
  | nil =>
    intro _ fuel hfuel
    obtain ⟨f, rfl⟩ : ∃ f, fuel = f + 1 := ⟨fuel - 1, by omega⟩
    rfl
  | cons s ss ih =>
    intro h fuel hfuel
    obtain ⟨f, rfl⟩ : ∃ f, fuel = f + 1 := ⟨fuel - 1, by omega⟩
    have hso : commaTail (s :: ss) = ',' :: (s ++ commaTail ss) := rfl
    rw [hso]
    simp only [decodeD]
    rw [if_neg (by decide : ¬(',' : Char) = ':')]
    have hexp : expect_delim ',' Error.ExpectedArrayComma
        { input := ',' :: (s ++ commaTail ss), in_seq := true, in_map := false } =
        (Except.ok (), { input := s ++ commaTail ss, in_seq := true, in_map := false }) := rfl
    simp only [Bool.false_eq_true, if_false]
    rw [hexp]
    dsimp only []
    obtain ⟨f', rfl⟩ : ∃ f', f = f' + 1 := ⟨f - 1, by omega⟩
    rw [decode_str_chunk f' s (commaTail ss) (h s (List.mem_cons_self s ss)).1
      (h s (List.mem_cons_self s ss)).2 (commaTail_shape ss)
      (colon_not_mem_commaTail (fun s' hs' => h s' (List.mem_cons_of_mem s hs')))]
    dsimp only []
    rw [ih (fun s' hs' => h s' (List.mem_cons_of_mem s hs')) (f' + 1) (by
      simp only [List.length_cons] at hfuel
      omega)]
    rfl

theorem decode_seq_head :
    ∀ (ss : List Str), (∀ s ∈ ss, s ≠ [] ∧ GoodStr s) →
      ∀ fuel, ss.length + 2 ≤ fuel →
      decodeD fuel (Req.seqItems Schema.str true)
          { input := joinComma ss, in_seq := true, in_map := false } =
        (Except.ok (DRes.items (ss.map Value.str)),
          { input := [], in_seq := true, in_map := false }) := by
  intro ss h fuel hfuel
  obtain ⟨f, rfl⟩ : ∃ f, fuel = f + 1 := ⟨fuel - 1, by omega⟩
  cases ss with
  | nil => rfl
  | cons s ss =>
    obtain ⟨c, s', rfl⟩ : ∃ c s', s = c :: s' := by
      rcases s with _ | ⟨c, s'⟩
      · exact absurd rfl (h _ (List.mem_cons_self _ _)).1
      · exact ⟨c, s', rfl⟩
    have hc : c ≠ ':' := by
      have := goodStr_chars (h _ (List.mem_cons_self _ _)).2 c
        (List.mem_cons_self c s')
      exact this.2.1
    have hjo : joinComma ((c :: s') :: ss) = c :: (s' ++ commaTail ss) := by
      simp [joinComma]
    rw [hjo]
    simp only [decodeD]
    rw [if_neg hc]
    simp only [eq_self_iff_true, if_true]
    obtain ⟨f', rfl⟩ : ∃ f', f = f' + 1 := ⟨f - 1, by omega⟩
    have hchunk := decode_str_chunk f' (c :: s') (commaTail ss)
      (by simp) (h _ (List.mem_cons_self _ _)).2 (commaTail_shape ss)
      (colon_not_mem_commaTail (fun s2 hs2 => h s2 (List.mem_cons_of_mem _ hs2)))
    rw [List.cons_append] at hchunk
    rw [hchunk]
    dsimp only []
    rw [decode_seq_tail ss (fun s2 hs2 => h s2 (List.mem_cons_of_mem _ hs2)) (f' + 1) (by
      simp only [List.length_cons] at hfuel
      omega)]
    rfl

theorem commaTail_cons (s : Str) (ss : List Str) :
    commaTail (s :: ss) = ',' :: (s ++ commaTail ss) := rfl

theorem encodeElems_strings_tail :
    ∀ (ss : List Str) (i : Nat) (st : SState), st.in_seq = true → st.in_map = false →
      (∀ s ∈ ss, GoodStr s) →
      encodeElems (ss.map Value.str) (i + 1) st =
        { st with output := st.output ++ commaTail ss } := by
  intro ss
  induction ss with
  | nil =>
    intro i st _ _ _
    simp [encodeElems, commaTail]
  | cons s ss ih =>
    intro i st hsq hmp h
    simp only [List.map_cons, encodeElems]
    rw [if_pos (Nat.succ_pos i)]
    simp only [encodeValue]
    rw [hsq, hmp,
      escape_str_eq_self true false s (goodStr_chars (h s (List.mem_cons_self s ss)))]
    rw [ih (i + 1) { output := st.output ++ [','] ++ s, in_seq := true, in_map := false }
      rfl rfl (fun s' hs' => h s' (List.mem_cons_of_mem s hs'))]
    simp [commaTail_cons, List.append_assoc]

theorem record_to_string_str (s : Str) (h : GoodStr s) :
    record_to_string (Value.str s) = s := by
  simp only [record_to_string, encodeValue]
  rw [escape_str_eq_self false false s (goodStr_chars h)]
  simp

theorem record_to_string_chr (c : Char) (h : GoodStr [c]) :
    record_to_string (Value.chr c) = [c] := by
  simp only [record_to_string, encodeValue]
  rw [escape_str_eq_self false false [c] (goodStr_chars h)]
  simp

theorem record_to_string_list_strings (ss : List Str) (h : ∀ s ∈ ss, GoodStr s) :
    record_to_string (Value.list (ss.map Value.str)) = joinComma ss := by
  cases ss with
  | nil => rfl
  | cons s ss =>
    simp only [record_to_string, List.map_cons, encodeValue, encodeElems]
    rw [if_neg (by decide : ¬(0 : Nat) > 0)]
    simp only [encodeValue]
    rw [escape_str_eq_self true false s (goodStr_chars (h s (List.mem_cons_self s ss)))]
    rw [show (0 : Nat) + 1 = 0 + 1 from rfl]
    rw [encodeElems_strings_tail ss 0
      { output := [] ++ s, in_seq := true, in_map := false } rfl rfl
      (fun s' hs' => h s' (List.mem_cons_of_mem s hs'))]
    simp [joinComma]

theorem commaTail_length_ge : ∀ ss : List Str, ss.length ≤ (commaTail ss).length := by
  intro ss
  induction ss with
  | nil => simp [commaTail]
  | cons s ss ih =>
    rw [commaTail_cons]
    simp only [List.length_cons, List.length_append]
    omega

theorem length_le_joinComma (ss : List Str) : ss.length ≤ (joinComma ss).length + 1 := by
  cases ss with
  | nil => simp [joinComma]
  | cons s ss =>
    have := commaTail_length_ge ss
    simp only [joinComma, List.length_cons, List.length_append]
    omega

theorem gnnc_get {s : Str} {ch : Char} {j : Nat}
    (h : get_next_nonescaped_char s ch = some j) : s.get? j = some ch := by
  cases s with
  | nil => simp [get_next_nonescaped_char] at h
  | cons c rest =>
    obtain ⟨j', rfl, hch, _, _⟩ := nonescapedFrom_eq_some ch rest c 1 _ h
    rw [show 1 + j' = j' + 1 by omega]
    simpa using hch

theorem gnnc_lower (s1 : Str) (d : Char) (t : Str) {ch : Char} (hch : ch ∉ s1) :
    ∀ j, get_next_nonescaped_char (s1 ++ d :: t) ch = some j → s1.length ≤ j := by
  intro j h
  have hj := gnnc_get h
  by_contra hlt
  push_neg at hlt
  rw [List.get?_append hlt] at hj
  exact hch (List.get?_mem hj)

theorem optMin_exact (a : Nat) : ∀ (o : Option Nat), (∀ j, o = some j → a ≤ j) →
    optMin (some a) o = some a
  | none, _ => rfl
  | some b, h => by
    have hab := h b rfl
    simp [optMin, Nat.min_eq_left hab]

theorem optMin_exact_right (a : Nat) : ∀ (o : Option Nat), (∀ j, o = some j → a ≤ j) →
    optMin o (some a) = some a
  | none, _ => rfl
  | some b, h => by
    have hab := h b rfl
    simp [optMin, Nat.min_eq_right hab]

theorem optMin_bound (a : Nat) : ∀ (o1 o2 : Option Nat),
    (∀ j, o1 = some j → a ≤ j) → (∀ j, o2 = some j → a ≤ j) →
    ∀ j, optMin o1 o2 = some j → a ≤ j
  | none, none, _, _, j => by intro h; simp [optMin] at h
  | none, some b, _, h2, j => by
    intro h
    simp only [optMin, Option.some.injEq] at h
    exact h ▸ h2 b rfl
  | some b, none, h1, _, j => by
    intro h
    simp only [optMin, Option.some.injEq] at h
    exact h ▸ h1 b rfl
  | some b, some c, h1, h2, j => by
    intro h
    simp only [optMin, Option.some.injEq] at h
    have hb := h1 b rfl
    have hc := h2 c rfl
    omega

theorem delim_idx_chunk (sq mp : Bool) (d : Char) (s1 t : Str)
    (h0 : s1 ≠ []) (h1 : GoodStr s1) (hd : ActiveDelim sq mp d) :
    get_next_delimiter_idx { input := s1 ++ d :: t, in_seq := sq, in_map := mp } =
      some s1.length := by
  have hbs : '\\' ∉ s1 := goodStr_not_mem h1 (by simp [reserved])
  have hcolon : ':' ∉ s1 := goodStr_not_mem h1 (by simp [reserved])
  have hcomma : ',' ∉ s1 := goodStr_not_mem h1 (by simp [reserved])
  have heqs : '=' ∉ s1 := goodStr_not_mem h1 (by simp [reserved])
  have hbcolon := gnnc_lower s1 d t hcolon
  have hbcomma := gnnc_lower s1 d t hcomma
  have hbeqs := gnnc_lower s1 d t heqs
  rcases hd with rfl | ⟨hsm, rfl⟩ | ⟨hmp, rfl⟩
  · have hm : get_next_nonescaped_char (s1 ++ ':' :: t) ':' = some s1.length :=
      gnnc_append ':' s1 t h0 hcolon hbs
    cases sq <;> cases mp
    · exact hm
    · show optMin (optMin (get_next_nonescaped_char (s1 ++ ':' :: t) ':')
          (get_next_nonescaped_char (s1 ++ ':' :: t) ','))
          (get_next_nonescaped_char (s1 ++ ':' :: t) '=') = some s1.length
      rw [hm, optMin_exact _ _ hbcomma]
      exact optMin_exact _ _ hbeqs
    · show optMin (get_next_nonescaped_char (s1 ++ ':' :: t) ':')
          (get_next_nonescaped_char (s1 ++ ':' :: t) ',') = some s1.length
      rw [hm]
      exact optMin_exact _ _ hbcomma
    · show optMin (optMin (get_next_nonescaped_char (s1 ++ ':' :: t) ':')
          (get_next_nonescaped_char (s1 ++ ':' :: t) ','))
          (get_next_nonescaped_char (s1 ++ ':' :: t) '=') = some s1.length
      rw [hm, optMin_exact _ _ hbcomma]
      exact optMin_exact _ _ hbeqs
  · have hm : get_next_nonescaped_char (s1 ++ ',' :: t) ',' = some s1.length :=
      gnnc_append ',' s1 t h0 hcomma hbs
    cases sq <;> cases mp
    · exact absurd hsm (by decide)
    · show optMin (optMin (get_next_nonescaped_char (s1 ++ ',' :: t) ':')
          (get_next_nonescaped_char (s1 ++ ',' :: t) ','))
          (get_next_nonescaped_char (s1 ++ ',' :: t) '=') = some s1.length
      rw [hm, optMin_exact_right _ _ hbcolon]
      exact optMin_exact _ _ hbeqs
    · show optMin (get_next_nonescaped_char (s1 ++ ',' :: t) ':')
          (get_next_nonescaped_char (s1 ++ ',' :: t) ',') = some s1.length
      rw [hm]
      exact optMin_exact_right _ _ hbcolon
    · show optMin (optMin (get_next_nonescaped_char (s1 ++ ',' :: t) ':')
          (get_next_nonescaped_char (s1 ++ ',' :: t) ','))
          (get_next_nonescaped_char (s1 ++ ',' :: t) '=') = some s1.length
      rw [hm, optMin_exact_right _ _ hbcolon]
      exact optMin_exact _ _ hbeqs
  · have hm : get_next_nonescaped_char (s1 ++ '=' :: t) '=' = some s1.length :=
      gnnc_append '=' s1 t h0 heqs hbs
    subst hmp
    cases sq
    · show optMin (optMin (get_next_nonescaped_char (s1 ++ '=' :: t) ':')
          (get_next_nonescaped_char (s1 ++ '=' :: t) ','))
          (get_next_nonescaped_char (s1 ++ '=' :: t) '=') = some s1.length
      rw [hm]
      exact optMin_exact_right _ _ (optMin_bound _ _ _ hbcolon hbcomma)
    · show optMin (optMin (get_next_nonescaped_char (s1 ++ '=' :: t) ':')
          (get_next_nonescaped_char (s1 ++ '=' :: t) ','))
          (get_next_nonescaped_char (s1 ++ '=' :: t) '=') = some s1.length
      rw [hm]
      exact optMin_exact_right _ _ (optMin_bound _ _ _ hbcolon hbcomma)

theorem parse_string_chunk_gen (sq mp : Bool) (s1 : Str) (d : Char) (t2 : Str)
    (h0 : s1 ≠ []) (h1 : GoodStr s1) (hd : ActiveDelim sq mp d) :
    parse_string { input := s1 ++ d :: t2, in_seq := sq, in_map := mp } =
      (Except.ok s1, { input := d :: t2, in_seq := sq, in_map := mp }) := by
  have hidx := delim_idx_chunk sq mp d s1 t2 h0 h1 hd
  have hbs : '\\' ∉ s1 := goodStr_not_mem h1 (by simp [reserved])
  simp only [parse_string, hidx, Option.getD_some, List.take_left,
    replace2_eq_of_not_mem _ _ _ s1 hbs, shift_input_forward, List.drop_left]

theorem parse_bool_true (sq mp : Bool) (t : Str) :
    parse_bool { input := 't' :: 'r' :: 'u' :: 'e' :: t, in_seq := sq, in_map := mp } =
      (Except.ok true, { input := t, in_seq := sq, in_map := mp }) := by
  simp [parse_bool, List.isPrefixOf, shift_input_forward]

theorem parse_bool_false (sq mp : Bool) (t : Str) :
    parse_bool { input := 'f' :: 'a' :: 'l' :: 's' :: 'e' :: t, in_seq := sq, in_map := mp } =
      (Except.ok false, { input := t, in_seq := sq, in_map := mp }) := by
  simp [parse_bool, List.isPrefixOf, shift_input_forward]

theorem scalarText_good {sc : Schema} {v : Value} (h : ScalarOK sc v) :
    GoodStr (scalarText v) := by
  cases h with
  | bool b =>
    cases b
    · show GoodStr ['f', 'a', 'l', 's', 'e']
      simp [GoodStr, reserved]
    · show GoodStr ['t', 'r', 'u', 'e']
      simp [GoodStr, reserved]
  | uint w n hn =>
    intro c hc
    exact isDigit_not_reserved (natToDec_digits n c hc)
  | chr c hc => exact hc
  | str s h0 h1 => exact h1

theorem scalarText_ne_nil {sc : Schema} {v : Value} (h : ScalarOK sc v) :
    scalarText v ≠ [] := by
  cases h with
  | bool b => cases b <;> simp [scalarText]
  | uint w n hn => exact natToDec_ne_nil n
  | chr c hc => simp [scalarText]
  | str s h0 h1 => exact h0

theorem decode_scalar_chunk (fuel : Nat) {sc : Schema} {v : Value} (h : ScalarOK sc v)
    (sq mp : Bool) (t : Str)
    (ht : t = [] ∨ ∃ d t2, t = d :: t2 ∧ ActiveDelim sq mp d) :
    decodeD (fuel + 1) (Req.val sc)
        { input := scalarText v ++ t, in_seq := sq, in_map := mp } =
      (Except.ok (DRes.val v), { input := t, in_seq := sq, in_map := mp }) := by
  cases h with
  | bool b =>
    simp only [decodeD]
    cases b
    · rw [show scalarText (Value.bool false) ++ t = 'f' :: 'a' :: 'l' :: 's' :: 'e' :: t
        from rfl, parse_bool_false]
    · rw [show scalarText (Value.bool true) ++ t = 't' :: 'r' :: 'u' :: 'e' :: t
        from rfl, parse_bool_true]
  | uint w n hn =>
    have ht2 : t = [] ∨ ∃ c t2, t = c :: t2 ∧ c.isDigit = false := by
      rcases ht with rfl | ⟨d, t2, rfl, hd⟩
      · exact Or.inl rfl
      · refine Or.inr ⟨d, t2, rfl, ?_⟩
        rcases hd with rfl | ⟨_, rfl⟩ | ⟨_, rfl⟩ <;> decide
    exact decode_uint_chunk fuel w n hn sq mp t ht2
  | chr c hc =>
    simp only [decodeD]
    rcases ht with rfl | ⟨d, t2, rfl, hd⟩
    · rw [show scalarText (Value.chr c) ++ [] = [c] from by simp [scalarText],
        parse_string_good_all sq mp [c] hc]
    · rw [show scalarText (Value.chr c) ++ d :: t2 = [c] ++ d :: t2 from rfl,
        parse_string_chunk_gen sq mp [c] d t2 (by simp) hc hd]
  | str s h0 h1 =>
    simp only [decodeD]
    rcases ht with rfl | ⟨d, t2, rfl, hd⟩
    · rw [show scalarText (Value.str s) ++ [] = s from by simp [scalarText],
        parse_string_good_all sq mp s h1]
    · rw [show scalarText (Value.str s) ++ d :: t2 = s ++ d :: t2 from rfl,
        parse_string_chunk_gen sq mp s d t2 h0 h1 hd]

theorem schemaWeight_pos : ∀ sc : Schema, 1 ≤ schemaWeight sc := by
  intro sc
  cases sc <;> simp only [schemaWeight] <;> omega

theorem encode_scalar {sc : Schema} {v : Value} (h : ScalarOK sc v) (st : SState) :
    encodeValue v st = { st with output := st.output ++ scalarText v } := by
  cases h with
  | bool b => cases b <;> rfl
  | uint w n hn => rfl
  | chr c hc =>
    simp only [encodeValue, scalarText]
    rw [escape_str_eq_self _ _ _ (goodStr_chars hc)]
  | str s h0 h1 =>
    simp only [encodeValue, scalarText]
    rw [escape_str_eq_self _ _ _ (goodStr_chars h1)]

theorem record_to_string_scalar {sc : Schema} {v : Value} (h : ScalarOK sc v) :
    record_to_string v = scalarText v := by
  simp [record_to_string, encode_scalar h]

theorem colonTail_cons (s : Str) (ss : List Str) :
    colonTail (s :: ss) = ':' :: (s ++ colonTail ss) := rfl

theorem colonTail_shape (ss : List Str) :
    colonTail ss = [] ∨ ∃ t2, colonTail ss = ':' :: t2 := by
  cases ss with
  | nil => exact Or.inl rfl
  | cons s ss => exact Or.inr ⟨s ++ colonTail ss, rfl⟩

theorem colonTail_length_ge : ∀ ss : List Str, ss.length ≤ (colonTail ss).length := by
  intro ss
  induction ss with
  | nil => simp [colonTail]
  | cons s ss ih =>
    rw [colonTail_cons]
    simp only [List.length_cons, List.length_append]
    omega

theorem length_le_joinColon (ss : List Str) : ss.length ≤ (joinColon ss).length + 1 := by
  cases ss with
  | nil => simp [joinColon]
  | cons s ss =>
    have := colonTail_length_ge ss
    simp only [joinColon, List.length_cons, List.length_append]
    omega

theorem encodeElems_scalars_tail :
    ∀ (vs : List Value) (i : Nat) (st : SState),
      (∀ v ∈ vs, ∃ sc, ScalarOK sc v) →
      encodeElems vs (i + 1) st =
        { st with output := st.output ++ commaTail (vs.map scalarText) } := by
  intro vs
  induction vs with
  | nil =>
    intro i st _
    simp [encodeElems, commaTail]
  | cons v vs ih =>
    intro i st h
    simp only [List.map_cons, encodeElems]
    rw [if_pos (Nat.succ_pos i)]
    obtain ⟨sc0, hv⟩ := h v (List.mem_cons_self v vs)
    rw [encode_scalar hv]
    rw [ih (i + 1) _ (fun v2 hv2 => h v2 (List.mem_cons_of_mem v hv2))]
    simp [commaTail_cons, List.append_assoc]

theorem encodeElems_scalars_head (vs : List Value) (st : SState)
    (h : ∀ v ∈ vs, ∃ sc, ScalarOK sc v) :
    encodeElems vs 0 st =
      { st with output := st.output ++ joinComma (vs.map scalarText) } := by
  cases vs with
  | nil => simp [encodeElems, joinComma]
  | cons v vs =>
    simp only [List.map_cons, encodeElems]
    rw [if_neg (by decide : ¬(0 : Nat) > 0)]
    obtain ⟨sc0, hv⟩ := h v (List.mem_cons_self v vs)
    rw [encode_scalar hv]
    rw [encodeElems_scalars_tail vs 0 _ (fun v2 hv2 => h v2 (List.mem_cons_of_mem v hv2))]
    simp [joinComma, List.append_assoc]

theorem record_to_string_list_scalars (vs : List Value)
    (h : ∀ v ∈ vs, ∃ sc, ScalarOK sc v) :
    record_to_string (Value.list vs) = joinComma (vs.map scalarText) := by
  simp only [record_to_string, encodeValue]
  rw [encodeElems_scalars_head vs _ h]
  simp

theorem record_to_string_tup_scalars (vs : List Value)
    (h : ∀ v ∈ vs, ∃ sc, ScalarOK sc v) :
    record_to_string (Value.tup vs) = joinComma (vs.map scalarText) := by
  simp only [record_to_string, encodeValue]
  rw [encodeElems_scalars_head vs _ h]
  simp

theorem encodeFields_scalars_tail :
    ∀ (vs : List Value) (i : Nat) (st : SState),
      (∀ v ∈ vs, ∃ sc, ScalarOK sc v) →
      encodeFields vs (i + 1) st =
        { st with output := st.output ++ colonTail (vs.map scalarText) } := by
  intro vs
  induction vs with
  | nil =>
    intro i st _
    simp [encodeFields, colonTail]
  | cons v vs ih =>
    intro i st h
    simp only [List.map_cons, encodeFields]
    rw [if_pos (Nat.succ_pos i)]
    obtain ⟨sc0, hv⟩ := h v (List.mem_cons_self v vs)
    rw [encode_scalar hv]
    rw [ih (i + 1) _ (fun v2 hv2 => h v2 (List.mem_cons_of_mem v hv2))]
    simp [colonTail_cons, List.append_assoc]

theorem encodeFields_scalars_head (vs : List Value) (st : SState)
    (h : ∀ v ∈ vs, ∃ sc, ScalarOK sc v) :
    encodeFields vs 0 st =
      { st with output := st.output ++ joinColon (vs.map scalarText) } := by
  cases vs with
  | nil => simp [encodeFields, joinColon]
  | cons v vs =>
    simp only [List.map_cons, encodeFields]
    rw [if_neg (by decide : ¬(0 : Nat) > 0)]
    obtain ⟨sc0, hv⟩ := h v (List.mem_cons_self v vs)
    rw [encode_scalar hv]
    rw [encodeFields_scalars_tail vs 0 _ (fun v2 hv2 => h v2 (List.mem_cons_of_mem v hv2))]
    simp [joinColon, List.append_assoc]

theorem record_to_string_struct_scalars (vs : List Value)
    (h : ∀ v ∈ vs, ∃ sc, ScalarOK sc v) :
    record_to_string (Value.structv vs) = joinColon (vs.map scalarText) := by
  simp only [record_to_string, encodeValue]
  rw [encodeFields_scalars_head vs _ h]
  simp

theorem encodeEntries_scalars_tail :
    ∀ (es : List (Value × Value)) (i : Nat) (st : SState),
      (∀ e ∈ es, (∃ sc, ScalarOK sc e.1) ∧ (∃ sc, ScalarOK sc e.2)) →
      encodeEntries es (i + 1) st =
        { st with output := st.output ++ commaTail (es.map entryText) } := by
  intro es
  induction es with
  | nil =>
    intro i st _
    simp [encodeEntries, commaTail]
  | cons e es ih =>
    obtain ⟨kv, vv⟩ := e
    intro i st h
    simp only [List.map_cons, encodeEntries]
    rw [if_pos (Nat.succ_pos i)]
    obtain ⟨⟨sk, hk⟩, sv, hv⟩ := h (kv, vv) (List.mem_cons_self _ _)
    rw [encode_scalar hk, encode_scalar hv]
    rw [ih (i + 1) _ (fun e2 he2 => h e2 (List.mem_cons_of_mem _ he2))]
    simp [commaTail_cons, entryText, List.append_assoc]

theorem encodeEntries_scalars_head (es : List (Value × Value)) (st : SState)
    (h : ∀ e ∈ es, (∃ sc, ScalarOK sc e.1) ∧ (∃ sc, ScalarOK sc e.2)) :
    encodeEntries es 0 st =
      { st with output := st.output ++ joinComma (es.map entryText) } := by
  cases es with
  | nil => simp [encodeEntries, joinComma]
  | cons e es =>
    obtain ⟨kv, vv⟩ := e
    simp only [List.map_cons, encodeEntries]
    rw [if_neg (by decide : ¬(0 : Nat) > 0)]
    obtain ⟨⟨sk, hk⟩, sv, hv⟩ := h (kv, vv) (List.mem_cons_self _ _)
    rw [encode_scalar hk, encode_scalar hv]
    rw [encodeEntries_scalars_tail es 0 _ (fun e2 he2 => h e2 (List.mem_cons_of_mem _ he2))]
    simp [joinComma, entryText, List.append_assoc]

theorem record_to_string_map_scalars (es : List (Value × Value))
    (h : ∀ e ∈ es, (∃ sc, ScalarOK sc e.1) ∧ (∃ sc, ScalarOK sc e.2)) :
    record_to_string (Value.mapv es) = joinComma (es.map entryText) := by
  simp only [record_to_string, encodeValue]
  rw [encodeEntries_scalars_head es _ h]
  simp

theorem record_to_string_enum_unit (tag : Str) (htag : GoodStr tag) :
    record_to_string (Value.enumv tag none) = tag := by
  simp only [record_to_string, encodeValue]
  rw [escape_str_eq_self _ _ tag (goodStr_chars htag)]
  simp

theorem record_to_string_enum_scalar (tag : Str) (htag : GoodStr tag)
    {psc : Schema} {pv : Value} (h : ScalarOK psc pv) :
    record_to_string (Value.enumv tag (some pv)) = tag ++ ':' :: scalarText pv := by
  simp only [record_to_string, encodeValue]
  rw [escape_str_eq_self _ _ tag (goodStr_chars htag)]
  rw [encode_scalar h]
  simp

theorem record_to_string_enum_tup (tag : Str) (htag : GoodStr tag) (vs : List Value)
    (h : ∀ v ∈ vs, ∃ sc, ScalarOK sc v) :
    record_to_string (Value.enumv tag (some (Value.tup vs))) =
      tag ++ ':' :: joinComma (vs.map scalarText) := by
  simp only [record_to_string, encodeValue]
  rw [escape_str_eq_self _ _ tag (goodStr_chars htag)]
  rw [encodeElems_scalars_head vs _ h]
  simp

theorem record_to_string_enum_struct (tag : Str) (htag : GoodStr tag) (vs : List Value)
    (h : ∀ v ∈ vs, ∃ sc, ScalarOK sc v) :
    record_to_string (Value.enumv tag (some (Value.structv vs))) =
      tag ++ ':' :: joinColon (vs.map scalarText) := by
  simp only [record_to_string, encodeValue]
  rw [escape_str_eq_self _ _ tag (goodStr_chars htag)]
  rw [encodeFields_scalars_head vs _ h]
  simp

theorem decode_seq_scalars_tail (sc : Schema) :
    ∀ (vs : List Value), (∀ v ∈ vs, ScalarOK sc v) →
      ∀ fuel, vs.length + 2 ≤ fuel →
      decodeD fuel (Req.seqItems sc false)
          { input := commaTail (vs.map scalarText), in_seq := true, in_map := false } =
        (Except.ok (DRes.items vs), { input := [], in_seq := true, in_map := false }) := by
  intro vs
  induction vs with
  | nil =>
    intro _ fuel hfuel
    obtain ⟨f, rfl⟩ : ∃ f, fuel = f + 1 := ⟨fuel - 1, by omega⟩
    rfl
  | cons v vs ih =>
    intro h fuel hfuel
    obtain ⟨f, rfl⟩ : ∃ f, fuel = f + 1 := ⟨fuel - 1, by omega⟩
    rw [show commaTail ((v :: vs).map scalarText) =
      ',' :: (scalarText v ++ commaTail (vs.map scalarText)) from rfl]
    simp only [decodeD]
    rw [if_neg (by decide : ¬(',' : Char) = ':')]
    simp only [Bool.false_eq_true, if_false]
    have hexp : expect_delim ',' Error.ExpectedArrayComma
        { input := ',' :: (scalarText v ++ commaTail (vs.map scalarText)),
          in_seq := true, in_map := false } =
      (Except.ok (),
        { input := scalarText v ++ commaTail (vs.map scalarText), in_seq := true, in_map := false }) := rfl
    rw [hexp]
    dsimp only []
    obtain ⟨f', rfl⟩ : ∃ f', f = f' + 1 := ⟨f - 1, by omega⟩
    have htail : commaTail (vs.map scalarText) = [] ∨
        ∃ d t2, commaTail (vs.map scalarText) = d :: t2 ∧ ActiveDelim true false d := by
      rcases commaTail_shape (vs.map scalarText) with hsh | ⟨t2, hsh⟩
      · exact Or.inl hsh
      · exact Or.inr ⟨',', t2, hsh, Or.inr (Or.inl ⟨rfl, rfl⟩)⟩
    rw [decode_scalar_chunk f' (h v (List.mem_cons_self v vs)) true false _ htail]
    dsimp only []
    rw [ih (fun v2 hv2 => h v2 (List.mem_cons_of_mem v hv2)) (f' + 1) (by
      simp only [List.length_cons] at hfuel
      omega)]

theorem decode_seq_scalars_head (sc : Schema) :
    ∀ (vs : List Value), (∀ v ∈ vs, ScalarOK sc v) →
      ∀ fuel, vs.length + 2 ≤ fuel →
      decodeD fuel (Req.seqItems sc true)
          { input := joinComma (vs.map scalarText), in_seq := true, in_map := false } =
        (Except.ok (DRes.items vs), { input := [], in_seq := true, in_map := false }) := by
  intro vs h fuel hfuel
  obtain ⟨f, rfl⟩ : ∃ f, fuel = f + 1 := ⟨fuel - 1, by omega⟩
  cases vs with
  | nil => rfl
  | cons v vs =>
    obtain ⟨c, s2, hcs⟩ :=
      List.exists_cons_of_ne_nil (scalarText_ne_nil (h v (List.mem_cons_self v vs)))
    have hc : c ≠ ':' := by
      have hg := goodStr_chars (scalarText_good (h v (List.mem_cons_self v vs))) c
        (by rw [hcs]; exact List.mem_cons_self c s2)
      exact hg.2.1
    have hjo : joinComma ((v :: vs).map scalarText) =
        c :: (s2 ++ commaTail (vs.map scalarText)) := by
      simp only [List.map_cons, joinComma, hcs, List.cons_append]
    rw [hjo]
    simp only [decodeD]
    rw [if_neg hc]
    simp only [eq_self_iff_true, if_true]
    obtain ⟨f', rfl⟩ : ∃ f', f = f' + 1 := ⟨f - 1, by omega⟩
    have htail : commaTail (vs.map scalarText) = [] ∨
        ∃ d t2, commaTail (vs.map scalarText) = d :: t2 ∧ ActiveDelim true false d := by
      rcases commaTail_shape (vs.map scalarText) with hsh | ⟨t2, hsh⟩
      · exact Or.inl hsh
      · exact Or.inr ⟨',', t2, hsh, Or.inr (Or.inl ⟨rfl, rfl⟩)⟩
    have hchunk := decode_scalar_chunk f' (h v (List.mem_cons_self v vs)) true false _ htail
    rw [hcs] at hchunk
    rw [List.cons_append] at hchunk
    rw [hchunk]
    dsimp only []
    rw [decode_seq_scalars_tail sc vs (fun v2 hv2 => h v2 (List.mem_cons_of_mem v hv2))
      (f' + 1) (by
      simp only [List.length_cons] at hfuel
      omega)]

theorem decode_seq_val (sc : Schema) (vs : List Value) (h : ∀ v ∈ vs, ScalarOK sc v)
    (fuel : Nat) (hfuel : vs.length + 2 ≤ fuel) :
    decodeD (fuel + 1) (Req.val (Schema.seq sc))
        { input := joinComma (vs.map scalarText), in_seq := false, in_map := false } =
      (Except.ok (DRes.val (Value.list vs)),
        { input := [], in_seq := false, in_map := false }) := by
  simp only [decodeD]
  rw [decode_seq_scalars_head sc vs h fuel hfuel]

theorem decode_tup_scalars_tail :
    ∀ (ps : List (Schema × Value)), (∀ p ∈ ps, ScalarOK p.1 p.2) →
      ∀ fuel, ps.length + 2 ≤ fuel →
      decodeD fuel (Req.tupItems (ps.map Prod.fst) false)
          { input := commaTail ((ps.map Prod.snd).map scalarText),
            in_seq := true, in_map := false } =
        (Except.ok (DRes.items (ps.map Prod.snd)),
          { input := [], in_seq := true, in_map := false }) := by
  intro ps
  induction ps with
  | nil =>
    intro _ fuel hfuel
    obtain ⟨f, rfl⟩ : ∃ f, fuel = f + 1 := ⟨fuel - 1, by omega⟩
    rfl
  | cons p ps ih =>
    obtain ⟨sc, v⟩ := p
    intro h fuel hfuel
    obtain ⟨f, rfl⟩ : ∃ f, fuel = f + 1 := ⟨fuel - 1, by omega⟩
    have hv : ScalarOK sc v := h (sc, v) (List.mem_cons_self _ _)
    rw [show commaTail ((((sc, v) :: ps).map Prod.snd).map scalarText) =
      ',' :: (scalarText v ++ commaTail ((ps.map Prod.snd).map scalarText)) from rfl]
    simp only [List.map_cons]
    simp only [decodeD]
    rw [if_neg (by decide : ¬(',' : Char) = ':')]
    simp only [Bool.false_eq_true, if_false]
    have hexp : expect_delim ',' Error.ExpectedArrayComma
        { input := ',' :: (scalarText v ++ commaTail ((ps.map Prod.snd).map scalarText)),
          in_seq := true, in_map := false } =
      (Except.ok (),
        { input := scalarText v ++ commaTail ((ps.map Prod.snd).map scalarText), in_seq := true, in_map := false }) := rfl
    rw [hexp]
    dsimp only []
    obtain ⟨f', rfl⟩ : ∃ f', f = f' + 1 := ⟨f - 1, by omega⟩
    have htail : commaTail ((ps.map Prod.snd).map scalarText) = [] ∨
        ∃ d t2, commaTail ((ps.map Prod.snd).map scalarText) = d :: t2 ∧
          ActiveDelim true false d := by
      rcases commaTail_shape ((ps.map Prod.snd).map scalarText) with hsh | ⟨t2, hsh⟩
      · exact Or.inl hsh
      · exact Or.inr ⟨',', t2, hsh, Or.inr (Or.inl ⟨rfl, rfl⟩)⟩
    rw [decode_scalar_chunk f' hv true false _ htail]
    dsimp only []
    rw [ih (fun p2 hp2 => h p2 (List.mem_cons_of_mem _ hp2)) (f' + 1) (by
      simp only [List.length_cons] at hfuel
      omega)]

theorem decode_tup_scalars_head :
    ∀ (ps : List (Schema × Value)), (∀ p ∈ ps, ScalarOK p.1 p.2) →
      ∀ fuel, ps.length + 2 ≤ fuel →
      decodeD fuel (Req.tupItems (ps.map Prod.fst) true)
          { input := joinComma ((ps.map Prod.snd).map scalarText),
            in_seq := true, in_map := false } =
        (Except.ok (DRes.items (ps.map Prod.snd)),
          { input := [], in_seq := true, in_map := false }) := by
  intro ps h fuel hfuel
  obtain ⟨f, rfl⟩ : ∃ f, fuel = f + 1 := ⟨fuel - 1, by omega⟩
  cases ps with
  | nil => rfl
  | cons p ps =>
    obtain ⟨sc, v⟩ := p
    have hv : ScalarOK sc v := h (sc, v) (List.mem_cons_self _ _)
    obtain ⟨c, s2, hcs⟩ := List.exists_cons_of_ne_nil (scalarText_ne_nil hv)
    have hc : c ≠ ':' := by
      have hg := goodStr_chars (scalarText_good hv) c
        (by rw [hcs]; exact List.mem_cons_self c s2)
      exact hg.2.1
    have hjo : joinComma ((((sc, v) :: ps).map Prod.snd).map scalarText) =
        c :: (s2 ++ commaTail ((ps.map Prod.snd).map scalarText)) := by
      simp only [List.map_cons, joinComma, hcs, List.cons_append]
    rw [hjo]
    simp only [List.map_cons]
    simp only [decodeD]
    rw [if_neg hc]
    simp only [eq_self_iff_true, if_true]
    obtain ⟨f', rfl⟩ : ∃ f', f = f' + 1 := ⟨f - 1, by omega⟩
    have htail : commaTail ((ps.map Prod.snd).map scalarText) = [] ∨
        ∃ d t2, commaTail ((ps.map Prod.snd).map scalarText) = d :: t2 ∧
          ActiveDelim true false d := by
      rcases commaTail_shape ((ps.map Prod.snd).map scalarText) with hsh | ⟨t2, hsh⟩
      · exact Or.inl hsh
      · exact Or.inr ⟨',', t2, hsh, Or.inr (Or.inl ⟨rfl, rfl⟩)⟩
    have hchunk := decode_scalar_chunk f' hv true false _ htail
    rw [hcs] at hchunk
    rw [List.cons_append] at hchunk
    rw [hchunk]
    dsimp only []
    rw [decode_tup_scalars_tail ps (fun p2 hp2 => h p2 (List.mem_cons_of_mem _ hp2))
      (f' + 1) (by
      simp only [List.length_cons] at hfuel
      omega)]

theorem decode_tuple_val (ps : List (Schema × Value)) (h : ∀ p ∈ ps, ScalarOK p.1 p.2)
    (fuel : Nat) (hfuel : ps.length + 2 ≤ fuel) :
    decodeD (fuel + 1) (Req.val (Schema.tuple (ps.map Prod.fst)))
        { input := joinComma ((ps.map Prod.snd).map scalarText),
          in_seq := false, in_map := false } =
      (Except.ok (DRes.val (Value.tup (ps.map Prod.snd))),
        { input := [], in_seq := false, in_map := false }) := by
  simp only [decodeD]
  rw [decode_tup_scalars_head ps h fuel hfuel]

theorem decode_struct_scalars_tail :
    ∀ (ps : List (Schema × Value)), (∀ p ∈ ps, ScalarOK p.1 p.2) →
      ∀ fuel, ps.length + 2 ≤ fuel →
      decodeD fuel (Req.structItems (ps.map Prod.fst) false)
          { input := colonTail ((ps.map Prod.snd).map scalarText),
            in_seq := false, in_map := false } =
        (Except.ok (DRes.items (ps.map Prod.snd)),
          { input := [], in_seq := false, in_map := false }) := by
  intro ps
  induction ps with
  | nil =>
    intro _ fuel hfuel
    obtain ⟨f, rfl⟩ : ∃ f, fuel = f + 1 := ⟨fuel - 1, by omega⟩
    rfl
  | cons p ps ih =>
    obtain ⟨sc, v⟩ := p
    intro h fuel hfuel
    obtain ⟨f, rfl⟩ : ∃ f, fuel = f + 1 := ⟨fuel - 1, by omega⟩
    have hv : ScalarOK sc v := h (sc, v) (List.mem_cons_self _ _)
    rw [show colonTail ((((sc, v) :: ps).map Prod.snd).map scalarText) =
      ':' :: (scalarText v ++ colonTail ((ps.map Prod.snd).map scalarText)) from rfl]
    simp only [List.map_cons]
    simp only [decodeD]
    simp only [Bool.false_eq_true, if_false]
    have hexp : expect_delim ':' Error.ExpectedArrayComma
        { input := ':' :: (scalarText v ++ colonTail ((ps.map Prod.snd).map scalarText)),
          in_seq := false, in_map := false } =
      (Except.ok (),
        { input := scalarText v ++ colonTail ((ps.map Prod.snd).map scalarText), in_seq := false, in_map := false }) := rfl
    rw [hexp]
    dsimp only []
    obtain ⟨f', rfl⟩ : ∃ f', f = f' + 1 := ⟨f - 1, by omega⟩
    have htail : colonTail ((ps.map Prod.snd).map scalarText) = [] ∨
        ∃ d t2, colonTail ((ps.map Prod.snd).map scalarText) = d :: t2 ∧
          ActiveDelim false false d := by
      rcases colonTail_shape ((ps.map Prod.snd).map scalarText) with hsh | ⟨t2, hsh⟩
      · exact Or.inl hsh
      · exact Or.inr ⟨':', t2, hsh, Or.inl rfl⟩
    rw [decode_scalar_chunk f' hv false false _ htail]
    dsimp only []
    rw [ih (fun p2 hp2 => h p2 (List.mem_cons_of_mem _ hp2)) (f' + 1) (by
      simp only [List.length_cons] at hfuel
      omega)]

theorem decode_struct_scalars_head :
    ∀ (ps : List (Schema × Value)), (∀ p ∈ ps, ScalarOK p.1 p.2) →
      ∀ fuel, ps.length + 2 ≤ fuel →
      decodeD fuel (Req.structItems (ps.map Prod.fst) true)
          { input := joinColon ((ps.map Prod.snd).map scalarText),
            in_seq := false, in_map := false } =
        (Except.ok (DRes.items (ps.map Prod.snd)),
          { input := [], in_seq := false, in_map := false }) := by
  intro ps h fuel hfuel
  obtain ⟨f, rfl⟩ : ∃ f, fuel = f + 1 := ⟨fuel - 1, by omega⟩
  cases ps with
  | nil => rfl
  | cons p ps =>
    obtain ⟨sc, v⟩ := p
    have hv : ScalarOK sc v := h (sc, v) (List.mem_cons_self _ _)
    obtain ⟨c, s2, hcs⟩ := List.exists_cons_of_ne_nil (scalarText_ne_nil hv)
    have hjo : joinColon ((((sc, v) :: ps).map Prod.snd).map scalarText) =
        c :: (s2 ++ colonTail ((ps.map Prod.snd).map scalarText)) := by
      simp only [List.map_cons, joinColon, hcs, List.cons_append]
    rw [hjo]
    simp only [List.map_cons]
    simp only [decodeD]
    simp only [eq_self_iff_true, if_true]
    obtain ⟨f', rfl⟩ : ∃ f', f = f' + 1 := ⟨f - 1, by omega⟩
    have htail : colonTail ((ps.map Prod.snd).map scalarText) = [] ∨
        ∃ d t2, colonTail ((ps.map Prod.snd).map scalarText) = d :: t2 ∧
          ActiveDelim false false d := by
      rcases colonTail_shape ((ps.map Prod.snd).map scalarText) with hsh | ⟨t2, hsh⟩
      · exact Or.inl hsh
      · exact Or.inr ⟨':', t2, hsh, Or.inl rfl⟩
    have hchunk := decode_scalar_chunk f' hv false false _ htail
    rw [hcs] at hchunk
    rw [List.cons_append] at hchunk
    rw [hchunk]
    dsimp only []
    rw [decode_struct_scalars_tail ps (fun p2 hp2 => h p2 (List.mem_cons_of_mem _ hp2))
      (f' + 1) (by
      simp only [List.length_cons] at hfuel
      omega)]

theorem decode_struct_val (ps : List (Schema × Value)) (h : ∀ p ∈ ps, ScalarOK p.1 p.2)
    (fuel : Nat) (hfuel : ps.length + 2 ≤ fuel) :
    decodeD (fuel + 1) (Req.val (Schema.sstruct (ps.map Prod.fst)))
        { input := joinColon ((ps.map Prod.snd).map scalarText),
          in_seq := false, in_map := false } =
      (Except.ok (DRes.val (Value.structv (ps.map Prod.snd))),
        { input := [], in_seq := false, in_map := false }) := by
  simp only [decodeD]
  rw [decode_struct_scalars_head ps h fuel hfuel]

theorem mapItems_comma_step (ks vsc : Schema) (f : Nat) (c : Char) (X : Str) (hc : c ≠ ':') :
    decodeD (f + 1) (Req.mapItems ks vsc false)
        { input := ',' :: c :: X, in_seq := false, in_map := true } =
      decodeD (f + 1) (Req.mapItems ks vsc true)
        { input := c :: X, in_seq := false, in_map := true } := by
  simp only [decodeD]
  rw [if_neg (by decide : ¬(',' : Char) = ':'), if_neg hc]
  simp only [Bool.false_eq_true, if_false, eq_self_iff_true, if_true]
  have hexp : expect_delim ',' Error.ExpectedMapComma
      { input := ',' :: c :: X, in_seq := false, in_map := true } =
    (Except.ok (), { input := c :: X, in_seq := false, in_map := true }) := rfl
  rw [hexp]

theorem decode_map_scalars_loop (ks vsc : Schema) :
    ∀ (es : List (Value × Value)), (∀ e ∈ es, ScalarOK ks e.1 ∧ ScalarOK vsc e.2) →
      ∀ fuel, es.length + 2 ≤ fuel →
      (decodeD fuel (Req.mapItems ks vsc true)
          { input := joinComma (es.map entryText), in_seq := false, in_map := true } =
        (Except.ok (DRes.entries es), { input := [], in_seq := false, in_map := true })) ∧
      (decodeD fuel (Req.mapItems ks vsc false)
          { input := commaTail (es.map entryText), in_seq := false, in_map := true } =
        (Except.ok (DRes.entries es), { input := [], in_seq := false, in_map := true })) := by
  intro es
  induction es with
  | nil =>
    intro _ fuel hfuel
    obtain ⟨f, rfl⟩ : ∃ f, fuel = f + 1 := ⟨fuel - 1, by omega⟩
    exact ⟨rfl, rfl⟩
  | cons e es ih =>
    obtain ⟨kv, vv⟩ := e
    intro h fuel hfuel
    obtain ⟨f, rfl⟩ : ∃ f, fuel = f + 1 := ⟨fuel - 1, by omega⟩
    obtain ⟨hk, hv2⟩ := h (kv, vv) (List.mem_cons_self _ _)
    have hk0 : scalarText kv ≠ [] := scalarText_ne_nil hk
    have hkg : GoodStr (scalarText kv) := scalarText_good hk
    have hv0 : scalarText vv ≠ [] := scalarText_ne_nil hv2
    have hvg : GoodStr (scalarText vv) := scalarText_good hv2
    have hkbs : '\\' ∉ scalarText kv := goodStr_not_mem hkg (by simp [reserved])
    have hkeq : '=' ∉ scalarText kv := goodStr_not_mem hkg (by simp [reserved])
    have hkcm : ',' ∉ scalarText kv := goodStr_not_mem hkg (by simp [reserved])
    have hvbs : '\\' ∉ scalarText vv := goodStr_not_mem hvg (by simp [reserved])
    have hveq : '=' ∉ scalarText vv := goodStr_not_mem hvg (by simp [reserved])
    have hvcm : ',' ∉ scalarText vv := goodStr_not_mem hvg (by simp [reserved])
    obtain ⟨c, kr, hcs⟩ := List.exists_cons_of_ne_nil hk0
    have hcchars := goodStr_chars hkg c (by rw [hcs]; exact List.mem_cons_self c kr)
    have hhead : decodeD (f + 1) (Req.mapItems ks vsc true)
        { input := joinComma (((kv, vv) :: es).map entryText),
          in_seq := false, in_map := true } =
      (Except.ok (DRes.entries ((kv, vv) :: es)),
        { input := [], in_seq := false, in_map := true }) := by
      have hjo : joinComma (((kv, vv) :: es).map entryText) =
          c :: (kr ++ '=' :: (scalarText vv ++ commaTail (es.map entryText))) := by
        simp only [List.map_cons, joinComma, entryText, hcs, List.cons_append,
          List.append_assoc]
      rw [hjo]
      rcases es with _ | ⟨⟨kv2, vv2⟩, rest⟩
      · rw [show commaTail (([] : List (Value × Value)).map entryText) = [] from rfl,
          List.append_nil]
        simp only [decodeD]
        rw [if_neg hcchars.2.1]
        simp only [eq_self_iff_true, if_true]
        obtain ⟨f2, rfl⟩ : ∃ f2, f = f2 + 1 := ⟨f - 1, by omega⟩
        have hlen : get_next_nonescaped_char
            (scalarText kv ++ '=' :: scalarText vv) '=' = some (scalarText kv).length :=
          gnnc_append '=' (scalarText kv) (scalarText vv) hk0 hkeq hkbs
        rw [hcs, List.cons_append] at hlen
        rw [hlen]
        dsimp only []
        have hnc : get_next_nonescaped_char
            (scalarText kv ++ '=' :: scalarText vv) ',' = none :=
          gnnc_none_of_not_mem (by
            simp only [List.mem_append, List.mem_cons, not_or]
            exact ⟨hkcm, by decide, hvcm⟩)
        rw [hcs, List.cons_append] at hnc
        rw [hnc]
        dsimp only []
        simp only [Bool.false_eq_true, if_false]
        have hchunk := decode_scalar_chunk f2 hk false true ('=' :: scalarText vv)
          (Or.inr ⟨'=', scalarText vv, rfl, Or.inr (Or.inr ⟨rfl, rfl⟩)⟩)
        rw [hcs, List.cons_append] at hchunk
        rw [hchunk]
        dsimp only []
        have hexp2 : expect_delim '=' Error.ExpectedMapEquals
            { input := '=' :: scalarText vv, in_seq := false, in_map := true } =
          (Except.ok (), { input := scalarText vv, in_seq := false, in_map := true }) := rfl
        rw [hexp2]
        dsimp only []
        have hne : get_next_nonescaped_char (scalarText vv) '=' = none :=
          gnnc_none_of_not_mem hveq
        rw [hne]
        dsimp only []
        simp only [Bool.false_eq_true, if_false]
        have hchunk2 := decode_scalar_chunk f2 hv2 false true [] (Or.inl rfl)
        rw [List.append_nil] at hchunk2
        rw [hchunk2]
        rfl
      · have hk2 : ScalarOK ks kv2 :=
          (h (kv2, vv2) (List.mem_cons_of_mem _ (List.mem_cons_self _ _))).1
        have hk20 : scalarText kv2 ≠ [] := scalarText_ne_nil hk2
        have hk2g : GoodStr (scalarText kv2) := scalarText_good hk2
        have hk2eq : '=' ∉ scalarText kv2 := goodStr_not_mem hk2g (by simp [reserved])
        have hk2bs : '\\' ∉ scalarText kv2 := goodStr_not_mem hk2g (by simp [reserved])
        have hct : commaTail (((kv2, vv2) :: rest).map entryText) =
            ',' :: (entryText (kv2, vv2) ++ commaTail (rest.map entryText)) := rfl
        rw [hct]
        simp only [decodeD]
        rw [if_neg hcchars.2.1]
        simp only [eq_self_iff_true, if_true]
        obtain ⟨f2, rfl⟩ : ∃ f2, f = f2 + 1 := ⟨f - 1, by omega⟩
        have hlen : get_next_nonescaped_char
            (scalarText kv ++ '=' :: (scalarText vv ++
              ',' :: (entryText (kv2, vv2) ++ commaTail (rest.map entryText)))) '=' =
            some (scalarText kv).length :=
          gnnc_append '=' (scalarText kv) _ hk0 hkeq hkbs
        rw [hcs, List.cons_append] at hlen
        rw [hlen]
        dsimp only []
        have hci : get_next_nonescaped_char
            (scalarText kv ++ '=' :: (scalarText vv ++
              ',' :: (entryText (kv2, vv2) ++ commaTail (rest.map entryText)))) ',' =
            some (scalarText kv ++ '=' :: scalarText vv).length := by
          rw [show scalarText kv ++ '=' :: (scalarText vv ++
              ',' :: (entryText (kv2, vv2) ++ commaTail (rest.map entryText))) =
            (scalarText kv ++ '=' :: scalarText vv) ++
              ',' :: (entryText (kv2, vv2) ++ commaTail (rest.map entryText)) from by
            simp [List.append_assoc]]
          exact gnnc_append ',' (scalarText kv ++ '=' :: scalarText vv) _
            (by simp) (by
              simp only [List.mem_append, List.mem_cons, not_or]
              exact ⟨hkcm, by decide, hvcm⟩) (by
              simp only [List.mem_append, List.mem_cons, not_or]
              exact ⟨hkbs, by decide, hvbs⟩)
        rw [hcs, List.cons_append] at hci
        rw [hci]
        dsimp only []
        rw [decide_eq_false (by
          simp only [List.length_append, List.length_cons]
          omega)]
        simp only [Bool.false_eq_true, if_false]
        have hchunk := decode_scalar_chunk f2 hk false true
          ('=' :: (scalarText vv ++
            ',' :: (entryText (kv2, vv2) ++ commaTail (rest.map entryText))))
          (Or.inr ⟨'=', _, rfl, Or.inr (Or.inr ⟨rfl, rfl⟩)⟩)
        rw [hcs, List.cons_append] at hchunk
        rw [hchunk]
        dsimp only []
        have hexp2 : expect_delim '=' Error.ExpectedMapEquals
            { input := '=' :: (scalarText vv ++
                ',' :: (entryText (kv2, vv2) ++ commaTail (rest.map entryText))),
              in_seq := false, in_map := true } =
          (Except.ok (),
            { input := scalarText vv ++
                ',' :: (entryText (kv2, vv2) ++ commaTail (rest.map entryText)),
              in_seq := false, in_map := true }) := rfl
        rw [hexp2]
        dsimp only []
        have hei : get_next_nonescaped_char
            (scalarText vv ++
              ',' :: (entryText (kv2, vv2) ++ commaTail (rest.map entryText))) '=' =
            some (scalarText vv ++ ',' :: scalarText kv2).length := by
          rw [show scalarText vv ++
              ',' :: (entryText (kv2, vv2) ++ commaTail (rest.map entryText)) =
            (scalarText vv ++ ',' :: scalarText kv2) ++
              '=' :: (scalarText vv2 ++ commaTail (rest.map entryText)) from by
            simp [entryText, List.append_assoc]]
          exact gnnc_append '=' (scalarText vv ++ ',' :: scalarText kv2) _
            (by simp) (by
              simp only [List.mem_append, List.mem_cons, not_or]
              exact ⟨hveq, by decide, hk2eq⟩) (by
              simp only [List.mem_append, List.mem_cons, not_or]
              exact ⟨hvbs, by decide, hk2bs⟩)
        rw [hei]
        dsimp only []
        have hci2 : get_next_nonescaped_char
            (scalarText vv ++
              ',' :: (entryText (kv2, vv2) ++ commaTail (rest.map entryText))) ',' =
            some (scalarText vv).length :=
          gnnc_append ',' (scalarText vv) _ hv0 hvcm hvbs
        rw [hci2, Option.getD_some]
        rw [decide_eq_false (by
          simp only [List.length_append, List.length_cons]
          omega)]
        simp only [Bool.false_eq_true, if_false]
        have hchunk2 := decode_scalar_chunk f2 hv2 false true
          (',' :: (entryText (kv2, vv2) ++ commaTail (rest.map entryText)))
          (Or.inr ⟨',', _, rfl, Or.inr (Or.inl ⟨rfl, rfl⟩)⟩)
        rw [hchunk2]
        dsimp only []
        have ihtail := (ih (fun e2 he2 => h e2 (List.mem_cons_of_mem _ he2)) (f2 + 1) (by
          simp only [List.length_cons] at hfuel ⊢
          omega)).2
        rw [hct] at ihtail
        rw [ihtail]
    refine ⟨hhead, ?_⟩
    have hsh : commaTail (((kv, vv) :: es).map entryText) =
        ',' :: c :: (kr ++ '=' :: (scalarText vv ++ commaTail (es.map entryText))) := by
      simp only [List.map_cons, commaTail_cons, entryText, hcs, List.cons_append,
        List.append_assoc]
    rw [hsh]
    rw [mapItems_comma_step ks vsc f c _ hcchars.2.1]
    have hjo2 : joinComma (((kv, vv) :: es).map entryText) =
        c :: (kr ++ '=' :: (scalarText vv ++ commaTail (es.map entryText))) := by
      simp only [List.map_cons, joinComma, entryText, hcs, List.cons_append,
        List.append_assoc]
    rw [← hjo2]
    exact hhead

theorem decode_map_val (ks vsc : Schema) (es : List (Value × Value))
    (h : ∀ e ∈ es, ScalarOK ks e.1 ∧ ScalarOK vsc e.2)
    (fuel : Nat) (hfuel : es.length + 2 ≤ fuel) :
    decodeD (fuel + 1) (Req.val (Schema.map ks vsc))
        { input := joinComma (es.map entryText), in_seq := false, in_map := false } =
      (Except.ok (DRes.val (Value.mapv es)),
        { input := [], in_seq := false, in_map := false }) := by
  simp only [decodeD]
  rw [(decode_map_scalars_loop ks vsc es h fuel hfuel).1]

theorem roundtrip_scalar {sc : Schema} {v : Value} (h : ScalarOK sc v) :
    record_from_str sc (record_to_string v) = Except.ok v := by
  rw [record_to_string_scalar h]
  unfold record_from_str
  obtain ⟨F, hF⟩ : ∃ F, recordFuel (scalarText v) sc = F + 1 :=
    ⟨recordFuel (scalarText v) sc - 1, by unfold recordFuel; omega⟩
  rw [hF]
  have hd := decode_scalar_chunk F h false false [] (Or.inl rfl)
  rw [List.append_nil] at hd
  rw [hd]
  rfl

theorem roundtrip_opt_none (sc : Schema) :
    record_from_str (Schema.option sc) (record_to_string (Value.opt none)) =
      Except.ok (Value.opt none) := by
  show record_from_str (Schema.option sc) [] = Except.ok (Value.opt none)
  unfold record_from_str
  obtain ⟨F, hF⟩ : ∃ F, recordFuel [] (Schema.option sc) = F + 1 :=
    ⟨recordFuel [] (Schema.option sc) - 1, by unfold recordFuel; omega⟩
  rw [hF]
  rfl

theorem roundtrip_opt_some {sc : Schema} {v : Value} (h : ScalarOK sc v) :
    record_from_str (Schema.option sc) (record_to_string (Value.opt (some v))) =
      Except.ok (Value.opt (some v)) := by
  have hts : record_to_string (Value.opt (some v)) = scalarText v := by
    rw [show record_to_string (Value.opt (some v)) = record_to_string v from rfl,
      record_to_string_scalar h]
  rw [hts]
  unfold record_from_str
  obtain ⟨F, hF⟩ : ∃ F, recordFuel (scalarText v) (Schema.option sc) = F + 1 :=
    ⟨recordFuel (scalarText v) (Schema.option sc) - 1, by unfold recordFuel; omega⟩
  rw [hF]
  simp only [decodeD]
  obtain ⟨c, s2, hcs⟩ := List.exists_cons_of_ne_nil (scalarText_ne_nil h)
  have hc : c ≠ ':' :=
    (goodStr_chars (scalarText_good h) c (by rw [hcs]; exact List.mem_cons_self c s2)).2.1
  have hnone : option_is_none
      { input := scalarText v, in_seq := false, in_map := false } = false := by
    rw [hcs]
    show (c == ':') = false
    exact beq_eq_false_iff_ne.mpr hc
  rw [hnone]
  simp only [Bool.false_eq_true, if_false]
  obtain ⟨f, rfl⟩ : ∃ f, F = f + 1 := ⟨F - 1, by
    have h16 : 16 ≤ recordFuel (scalarText v) (Schema.option sc) := by
      unfold recordFuel; omega
    omega⟩
  have hd := decode_scalar_chunk f h false false [] (Or.inl rfl)
  rw [List.append_nil] at hd
  rw [hd]
  rfl

theorem roundtrip_seq (sc : Schema) (vs : List Value) (h : ∀ v ∈ vs, ScalarOK sc v) :
    record_from_str (Schema.seq sc) (record_to_string (Value.list vs)) =
      Except.ok (Value.list vs) := by
  rw [record_to_string_list_scalars vs (fun v hv => ⟨sc, h v hv⟩)]
  unfold record_from_str
  obtain ⟨F, hF⟩ : ∃ F, recordFuel (joinComma (vs.map scalarText)) (Schema.seq sc) = F + 1 :=
    ⟨recordFuel (joinComma (vs.map scalarText)) (Schema.seq sc) - 1, by
      unfold recordFuel; omega⟩
  have hge : vs.length + 2 ≤ F := by
    have h1 := length_le_joinComma (vs.map scalarText)
    simp only [List.length_map] at h1
    unfold recordFuel at hF
    omega
  rw [hF]
  rw [decode_seq_val sc vs h F hge]
  rfl

theorem roundtrip_tuple (ps : List (Schema × Value)) (h : ∀ p ∈ ps, ScalarOK p.1 p.2) :
    record_from_str (Schema.tuple (ps.map Prod.fst))
        (record_to_string (Value.tup (ps.map Prod.snd))) =
      Except.ok (Value.tup (ps.map Prod.snd)) := by
  rw [record_to_string_tup_scalars (ps.map Prod.snd) (by
    intro v hv
    obtain ⟨p, hpm, rfl⟩ := List.mem_map.mp hv
    exact ⟨p.1, h p hpm⟩)]
  unfold record_from_str
  obtain ⟨F, hF⟩ : ∃ F, recordFuel (joinComma ((ps.map Prod.snd).map scalarText))
      (Schema.tuple (ps.map Prod.fst)) = F + 1 :=
    ⟨recordFuel (joinComma ((ps.map Prod.snd).map scalarText))
        (Schema.tuple (ps.map Prod.fst)) - 1, by
      unfold recordFuel; omega⟩
  have hge : ps.length + 2 ≤ F := by
    have h1 := length_le_joinComma ((ps.map Prod.snd).map scalarText)
    simp only [List.length_map] at h1
    unfold recordFuel at hF
    omega
  rw [hF]
  rw [decode_tuple_val ps h F hge]
  rfl

theorem roundtrip_struct (ps : List (Schema × Value)) (h : ∀ p ∈ ps, ScalarOK p.1 p.2) :
    record_from_str (Schema.sstruct (ps.map Prod.fst))
        (record_to_string (Value.structv (ps.map Prod.snd))) =
      Except.ok (Value.structv (ps.map Prod.snd)) := by
  rw [record_to_string_struct_scalars (ps.map Prod.snd) (by
    intro v hv
    obtain ⟨p, hpm, rfl⟩ := List.mem_map.mp hv
    exact ⟨p.1, h p hpm⟩)]
  unfold record_from_str
  obtain ⟨F, hF⟩ : ∃ F, recordFuel (joinColon ((ps.map Prod.snd).map scalarText))
      (Schema.sstruct (ps.map Prod.fst)) = F + 1 :=
    ⟨recordFuel (joinColon ((ps.map Prod.snd).map scalarText))
        (Schema.sstruct (ps.map Prod.fst)) - 1, by
      unfold recordFuel; omega⟩
  have hge : ps.length + 2 ≤ F := by
    have h1 := length_le_joinColon ((ps.map Prod.snd).map scalarText)
    simp only [List.length_map] at h1
    unfold recordFuel at hF
    omega
  rw [hF]
  rw [decode_struct_val ps h F hge]
  rfl

theorem roundtrip_map (ks vsc : Schema) (es : List (Value × Value))
    (h : ∀ e ∈ es, ScalarOK ks e.1 ∧ ScalarOK vsc e.2) :
    record_from_str (Schema.map ks vsc) (record_to_string (Value.mapv es)) =
      Except.ok (Value.mapv es) := by
  rw [record_to_string_map_scalars es (fun e he => ⟨⟨ks, (h e he).1⟩, ⟨vsc, (h e he).2⟩⟩)]
  unfold record_from_str
  obtain ⟨F, hF⟩ : ∃ F, recordFuel (joinComma (es.map entryText)) (Schema.map ks vsc) = F + 1 :=
    ⟨recordFuel (joinComma (es.map entryText)) (Schema.map ks vsc) - 1, by
      unfold recordFuel; omega⟩
  have hge : es.length + 2 ≤ F := by
    have h1 := length_le_joinComma (es.map entryText)
    simp only [List.length_map] at h1
    unfold recordFuel at hF
    omega
  rw [hF]
  rw [decode_map_val ks vsc es h F hge]
  rfl

theorem roundtrip_enum_unit (variants : List (Str × VKind)) (tag nm : Str)
    (h0 : tag ≠ []) (h1 : GoodStr tag)
    (hfind : find_variant variants tag = some (nm, VKind.unitk)) :
    record_from_str (Schema.enum1 variants) (record_to_string (Value.enumv tag none)) =
      Except.ok (Value.enumv tag none) := by
  rw [record_to_string_enum_unit tag h1]
  unfold record_from_str
  obtain ⟨F, hF⟩ : ∃ F, recordFuel tag (Schema.enum1 variants) = F + 1 :=
    ⟨recordFuel tag (Schema.enum1 variants) - 1, by unfold recordFuel; omega⟩
  rw [hF]
  simp only [decodeD]
  rw [parse_string_good_all false false tag h1]
  dsimp only []
  rw [hfind]
  rfl

theorem roundtrip_enum_newtype (variants : List (Str × VKind)) (tag nm : Str)
    (psc : Schema) (pv : Value) (h0 : tag ≠ []) (h1 : GoodStr tag)
    (hfind : find_variant variants tag = some (nm, VKind.newtypek psc))
    (hp : ScalarOK psc pv) :
    record_from_str (Schema.enum1 variants)
        (record_to_string (Value.enumv tag (some pv))) =
      Except.ok (Value.enumv tag (some pv)) := by
  rw [record_to_string_enum_scalar tag h1 hp]
  unfold record_from_str
  obtain ⟨F, hF⟩ : ∃ F, recordFuel (tag ++ ':' :: scalarText pv) (Schema.enum1 variants) =
      F + 1 :=
    ⟨recordFuel (tag ++ ':' :: scalarText pv) (Schema.enum1 variants) - 1, by
      unfold recordFuel; omega⟩
  rw [hF]
  simp only [decodeD]
  rw [parse_string_chunk_gen false false tag ':' (scalarText pv) h0 h1 (Or.inl rfl)]
  dsimp only []
  rw [hfind]
  dsimp only []
  rw [show consume_variant_colon
      { input := ':' :: scalarText pv, in_seq := false, in_map := false } =
    { input := scalarText pv, in_seq := false, in_map := false } from rfl]
  obtain ⟨f, rfl⟩ : ∃ f, F = f + 1 := ⟨F - 1, by
    have h16 : 16 ≤ recordFuel (tag ++ ':' :: scalarText pv) (Schema.enum1 variants) := by
      unfold recordFuel; omega
    omega⟩
  have hd := decode_scalar_chunk f hp false false [] (Or.inl rfl)
  rw [List.append_nil] at hd
  rw [hd]
  rfl

theorem roundtrip_enum_tuplev (variants : List (Str × VKind)) (tag nm : Str)
    (ps : List (Schema × Value)) (h0 : tag ≠ []) (h1 : GoodStr tag)
    (hfind : find_variant variants tag = some (nm, VKind.tuplek (ps.map Prod.fst)))
    (hp : ∀ p ∈ ps, ScalarOK p.1 p.2) :
    record_from_str (Schema.enum1 variants)
        (record_to_string (Value.enumv tag (some (Value.tup (ps.map Prod.snd))))) =
      Except.ok (Value.enumv tag (some (Value.tup (ps.map Prod.snd)))) := by
  rw [record_to_string_enum_tup tag h1 (ps.map Prod.snd) (by
    intro v hv
    obtain ⟨p, hpm, rfl⟩ := List.mem_map.mp hv
    exact ⟨p.1, hp p hpm⟩)]
  unfold record_from_str
  obtain ⟨F, hF⟩ : ∃ F, recordFuel
      (tag ++ ':' :: joinComma ((ps.map Prod.snd).map scalarText))
      (Schema.enum1 variants) = F + 1 :=
    ⟨recordFuel (tag ++ ':' :: joinComma ((ps.map Prod.snd).map scalarText))
        (Schema.enum1 variants) - 1, by
      unfold recordFuel; omega⟩
  rw [hF]
  simp only [decodeD]
  rw [parse_string_chunk_gen false false tag ':'
    (joinComma ((ps.map Prod.snd).map scalarText)) h0 h1 (Or.inl rfl)]
  dsimp only []
  rw [hfind]
  dsimp only []
  rw [show consume_variant_colon
      { input := ':' :: joinComma ((ps.map Prod.snd).map scalarText),
        in_seq := false, in_map := false } =
    { input := joinComma ((ps.map Prod.snd).map scalarText),
      in_seq := false, in_map := false } from rfl]
  obtain ⟨f, rfl⟩ : ∃ f, F = f + 1 := ⟨F - 1, by
    have h16 : 16 ≤ recordFuel (tag ++ ':' :: joinComma ((ps.map Prod.snd).map scalarText))
        (Schema.enum1 variants) := by
      unfold recordFuel; omega
    omega⟩
  have hge : ps.length + 2 ≤ f := by
    have h1l := length_le_joinComma ((ps.map Prod.snd).map scalarText)
    simp only [List.length_map] at h1l
    unfold recordFuel at hF
    simp only [List.length_append, List.length_cons] at hF
    omega
  rw [decode_tuple_val ps hp f hge]
  rfl

theorem roundtrip_enum_structv (variants : List (Str × VKind)) (tag nm : Str)
    (ps : List (Schema × Value)) (h0 : tag ≠ []) (h1 : GoodStr tag)
    (hfind : find_variant variants tag = some (nm, VKind.structk (ps.map Prod.fst)))
    (hp : ∀ p ∈ ps, ScalarOK p.1 p.2) :
    record_from_str (Schema.enum1 variants)
        (record_to_string (Value.enumv tag (some (Value.structv (ps.map Prod.snd))))) =
      Except.ok (Value.enumv tag (some (Value.structv (ps.map Prod.snd)))) := by
  rw [record_to_string_enum_struct tag h1 (ps.map Prod.snd) (by
    intro v hv
    obtain ⟨p, hpm, rfl⟩ := List.mem_map.mp hv
    exact ⟨p.1, hp p hpm⟩)]
  unfold record_from_str
  obtain ⟨F, hF⟩ : ∃ F, recordFuel
      (tag ++ ':' :: joinColon ((ps.map Prod.snd).map scalarText))
      (Schema.enum1 variants) = F + 1 :=
    ⟨recordFuel (tag ++ ':' :: joinColon ((ps.map Prod.snd).map scalarText))
        (Schema.enum1 variants) - 1, by
      unfold recordFuel; omega⟩
  rw [hF]
  simp only [decodeD]
  rw [parse_string_chunk_gen false false tag ':'
    (joinColon ((ps.map Prod.snd).map scalarText)) h0 h1 (Or.inl rfl)]
  dsimp only []
  rw [hfind]
  dsimp only []
  rw [show consume_variant_colon
      { input := ':' :: joinColon ((ps.map Prod.snd).map scalarText),
        in_seq := false, in_map := false } =
    { input := joinColon ((ps.map Prod.snd).map scalarText),
      in_seq := false, in_map := false } from rfl]
  obtain ⟨f, rfl⟩ : ∃ f, F = f + 1 := ⟨F - 1, by
    have h16 : 16 ≤ recordFuel (tag ++ ':' :: joinColon ((ps.map Prod.snd).map scalarText))
        (Schema.enum1 variants) := by
      unfold recordFuel; omega
    omega⟩
  have hge : ps.length + 2 ≤ f := by
    have h1l := length_le_joinColon ((ps.map Prod.snd).map scalarText)
    simp only [List.length_map] at h1l
    unfold recordFuel at hF
    simp only [List.length_append, List.length_cons] at hF
    omega
  rw [decode_struct_val ps hp f hge]
  rfl

/-! Claim theorems. -/

/-- Claim C6: decoding `"a=b,cx,y=d"` (an unescaped comma in the key region
before its equals) as a string-to-string map fails with the map-syntax error
`ExpectedMapEquals`, and decoding `"a=b=x,c=d"` (an unescaped equals before
the value's terminating comma) fails with the map-syntax error
`ExpectedMapComma`; neither input yields a value. -/
theorem c6_map_syntax_errors :
    record_from_str (Schema.map Schema.str Schema.str) ("a=b,cx,y=d".toList) =
      Except.error Error.ExpectedMapEquals ∧
    record_from_str (Schema.map Schema.str Schema.str) ("a=b=x,c=d".toList) =
      Except.error Error.ExpectedMapComma := by
  exact ⟨rfl, rfl⟩

/-- Claim C8 (the failing input): decoding `"256"` as a `u8` does not report
an overflow error (the unused `Error::IntegerOverflow` notwithstanding): the
digit accumulation wraps around modulo `2^8` — release-build semantics of
the source's unchecked `int *= 10; int += d`, whose own comment admits it
"can overflow and panic or return bogus data" — and yields the bogus value
`Ok(0)`. -/
theorem c8_overflow_wraps :
    record_from_str (Schema.uint 8) ("256".toList) = Except.ok (Value.uint 0) := rfl

/-- Claim C10: encoding `None` or the unit value appends nothing to the
output buffer, while the enclosing composite's element counter still
advances, so an absent element occupies an empty slot between separators:
`[Some "a", None, Some "b"]` encodes to exactly `"a,,b"`, and a top-level
`None` encodes to the empty string. -/
theorem c10_none_encodes_nothing :
    (∀ st, encodeValue (Value.opt none) st = st) ∧
    (∀ st, encodeValue Value.unitv st = st) ∧
    record_to_string (Value.list [Value.opt (some (Value.str ['a'])), Value.opt none,
      Value.opt (some (Value.str ['b']))]) = ['a', ',', ',', 'b'] ∧
    record_to_string (Value.opt none) = [] := by
  exact ⟨fun _ => rfl, fun _ => rfl, rfl, rfl⟩

/-- Claim C1 (counterexample): three reserved-free values that do not
round-trip, bounding the amended class.  The sequence `["", "a"]` has no
reserved character in any string component, yet it encodes to `",a"`, which
decodes to the one-element sequence `[",a"]` (the leading comma sits at
index 0, which the unescaped-occurrence search never counts, so the whole
remainder becomes one token) — empty elements break the round trip.  The
nested sequence `[["a"], ["b"]]` encodes to `"a,b"`, which decodes to the
one-element nested sequence `[["a","b"]]` (the inner decode clears the
`in_seq` flag on exit, so the outer loop no longer sees its own commas) —
nesting breaks the round trip.  The sequence `[None]` encodes to `""`,
which decodes to the empty sequence `[]` — an absent element's empty slot
is indistinguishable from no elements at all. -/
theorem c1_counterexample :
    GoodStr [] ∧ GoodStr ['a'] ∧
    record_to_string (Value.list [Value.str [], Value.str ['a']]) = [',', 'a'] ∧
    record_from_str (Schema.seq Schema.str)
        (record_to_string (Value.list [Value.str [], Value.str ['a']])) =
      Except.ok (Value.list [Value.str [',', 'a']]) ∧
    Value.list [Value.str [',', 'a']] ≠ Value.list [Value.str [], Value.str ['a']] ∧
    record_to_string (Value.list [Value.list [Value.str ['a']],
      Value.list [Value.str ['b']]]) = ['a', ',', 'b'] ∧
    record_from_str (Schema.seq (Schema.seq Schema.str))
        (record_to_string (Value.list [Value.list [Value.str ['a']],
          Value.list [Value.str ['b']]])) =
      Except.ok (Value.list [Value.list [Value.str ['a'], Value.str ['b']]]) ∧
    Value.list [Value.list [Value.str ['a'], Value.str ['b']]] ≠
      Value.list [Value.list [Value.str ['a']], Value.list [Value.str ['b']]] ∧
    record_to_string (Value.list [Value.opt none]) = [] ∧
    record_from_str (Schema.seq (Schema.option Schema.str))
        (record_to_string (Value.list [Value.opt none])) =
      Except.ok (Value.list []) ∧
    Value.list ([] : List Value) ≠ Value.list [Value.opt none] := by
  refine ⟨by simp [GoodStr], by simp [GoodStr, reserved], rfl, rfl, by simp,
    rfl, rfl, by simp, rfl, rfl, by simp⟩

/-- Claim C2 (counterexample): on input `":"` with target `':'` the
occurrence at index 0 counts as unescaped under the claim's rule
(`i = 0` or no preceding backslash), so the claimed search returns index 0 —
but `get_next_nonescaped_char` returns `none`, because its filter
`idx > 0 && input[idx-1] != '\\'` drops every occurrence at index 0. -/
theorem c2_counterexample :
    get_next_nonescaped_char [':'] ':' = none ∧
    find_unescaped_claim [':'] ':' = some 0 := by
  exact ⟨rfl, rfl⟩

/-- Claim C2 (amended): `get_next_nonescaped_char` returns the index of the
leftmost occurrence of `ch` at a positive index whose preceding character is
not a backslash — occurrences at index 0 are never counted (the source's
filter requires `idx > 0`) — and returns `none` when every occurrence of
`ch` at a positive index is preceded by a backslash (in particular when the
only occurrence is at index 0). -/
theorem c2_amended_leftmost :
    ∀ (s : Str) (ch : Char),
      (∀ i, get_next_nonescaped_char s ch = some i →
        0 < i ∧ s.get? i = some ch ∧ s.get? (i - 1) ≠ some '\\' ∧
          ∀ j, j < i → 0 < j → s.get? j = some ch → s.get? (j - 1) = some '\\') ∧
      (get_next_nonescaped_char s ch = none →
        ∀ j, 0 < j → s.get? j = some ch → s.get? (j - 1) = some '\\') := by
  intro s ch
  cases s with
  | nil =>
    constructor
    · intro i h
      simp [get_next_nonescaped_char] at h
    · intro _ j _ hj
      simp at hj
  | cons c rest =>
    constructor
    · intro i h
      obtain ⟨j, rfl, hch, hpr, hmin⟩ :=
        nonescapedFrom_eq_some ch rest c 1 i h
      refine ⟨by omega, ?_, ?_, ?_⟩
      · rw [show 1 + j = j + 1 by omega]
        simpa using hch
      · rw [show 1 + j - 1 = j by omega]
        exact hpr
      · intro j0 hlt hpos hch0
        obtain ⟨j0', rfl⟩ : ∃ j0', j0 = j0' + 1 := ⟨j0 - 1, by omega⟩
        have := hmin j0' (by omega) (by simpa using hch0)
        simpa using this
    · intro h j hpos hch
      obtain ⟨j', rfl⟩ : ∃ j', j = j' + 1 := ⟨j - 1, by omega⟩
      have := nonescapedFrom_eq_none ch rest c 1 h j' (by simpa using hch)
      simpa using this

/-- Witness for C2 (amended), at `s = "a:"`, `ch = ':'`, `i = 1`: the
returned index 1 holds a colon, index 0 is not a backslash, and there is no
earlier counting occurrence. -/
theorem c2_amended_leftmost_witness :
    0 < 1 ∧ (['a', ':'] : Str).get? 1 = some ':' ∧
      (['a', ':'] : Str).get? 0 ≠ some '\\' ∧
      ∀ j, j < 1 → 0 < j → (['a', ':'] : Str).get? j = some ':' →
        (['a', ':'] : Str).get? (j - 1) = some '\\' := by
  have h := (c2_amended_leftmost ['a', ':'] ':').1 1 rfl
  exact h

/-- Claim C3 (counterexample): on the raw token `\\n` (backslash, backslash,
letter n) the transform applied by `parse_string` yields a newline (the
`\\` collapse runs before the `\n` replacement), whereas the claimed order
(collapse of `\\` last) yields a literal backslash followed by a newline. -/
theorem c3_counterexample :
    parse_string { input := ['\\', '\\', 'n'], in_seq := false, in_map := false } =
      (Except.ok ['\n'], { input := [], in_seq := false, in_map := false }) ∧
    unescapeClaimedOrder ['\\', '\\', 'n'] = ['\\', '\n'] ∧
    (['\n'] : Str) ≠ ['\\', '\n'] := by
  exact ⟨rfl, rfl, by decide⟩

/-- Claim C3 (amended): the transform applied by `parse_string` after
slicing performs its literal search-and-replace steps in this exact order:
the backslash-escaped structural characters `\:`, `\,`, `\=` first, then the
collapse of `\\` to a single backslash, then removal of an escaped trailing
newline, and finally the escaped non-printables `\n`, `\r`, `\t`. -/
theorem c3_amended_order :
    ∀ st, parse_string st =
      (Except.ok (unescapeAmendedOrder
          (st.input.take ((get_next_delimiter_idx st).getD st.input.length))),
        shift_input_forward st ((get_next_delimiter_idx st).getD st.input.length)) :=
  fun _ => rfl

/-- Claim C4: `escape_str` replaces backslash first, then colon, then
newline; it replaces comma iff the serializer is in a sequence or map
context, and equals iff it is in a map context; and tab and carriage-return
characters are never escaped on the encode side (any string free of the five
characters that are replaced — which tab and carriage return are — passes
through unchanged). -/
theorem c4_escape_order :
    (∀ sq mp v, escape_str sq mp v = escapeClaimedOrder sq mp v) ∧
    (∀ sq mp v, (∀ c ∈ v, c ≠ '\\' ∧ c ≠ ':' ∧ c ≠ '\n' ∧ c ≠ ',' ∧ c ≠ '=') →
      escape_str sq mp v = v) := by
  exact ⟨fun _ _ _ => rfl, escape_str_eq_self⟩

/-- Witness for C4: the tab and carriage-return string passes through
`escape_str` unchanged even in full map context. -/
theorem c4_escape_order_witness :
    escape_str true true ['\t', '\r'] = ['\t', '\r'] :=
  c4_escape_order.2 true true ['\t', '\r'] (by decide)

/-- Claim C5: when decoding an optional position, the result is `None` iff
the remaining input is empty or its very next character is a delimiter
active in the current context (`:` always; `,` when `in_seq` or `in_map`;
`=` when `in_map`); and the two concrete consequences: `"a,,b"` as a
sequence of optional strings decodes to `[Some "a", None, Some "b"]`, and
`"a"` as a single optional string decodes to `Some "a"`. -/
theorem c5_option_none_iff :
    (∀ st, option_is_none st = true ↔ noneClaim st) ∧
    record_from_str (Schema.seq (Schema.option Schema.str)) ("a,,b".toList) =
      Except.ok (Value.list [Value.opt (some (Value.str ['a'])), Value.opt none,
        Value.opt (some (Value.str ['b']))]) ∧
    record_from_str (Schema.option Schema.str) ("a".toList) =
      Except.ok (Value.opt (some (Value.str ['a']))) := by
  refine ⟨fun st => ?_, rfl, rfl⟩
  obtain ⟨inp, sq, mp⟩ := st
  cases inp with
  | nil => simp [option_is_none, noneClaim]
  | cons c rest =>
    cases sq <;> cases mp <;>
      simp [option_is_none, noneClaim] <;> tauto

/-- Claim C7: whenever the schema-driven decode of the value itself
succeeds, the entry point `record_from_str` returns `TrailingCharacters`
iff the remaining unconsumed input is non-empty, and returns the decoded
value unchanged when the remainder is empty. -/
theorem c7_trailing_characters (sc : Schema) (s : Str) (v : Value) (st' : DState)
    (h : decodeD (recordFuel s sc) (Req.val sc)
        { input := s, in_seq := false, in_map := false } = (Except.ok (DRes.val v), st')) :
    record_from_str sc s =
      if st'.input.isEmpty then Except.ok v
      else Except.error Error.TrailingCharacters := by
  unfold record_from_str
  rw [h]

/-- Claim C9: every operation of the decode engine only consumes input —
after any step of the schema-driven decoder, whether it succeeds or fails,
the remaining input is a suffix of the input before the step; the cursor
never rewinds or grows. -/
theorem c9_monotonic_consumption :
    ∀ (fuel : Nat) (req : Req) (st : DState),
      ((decodeD fuel req st).2).input <:+ st.input := by
  intro fuel
  induction fuel with
  | zero => intro req st; exact List.suffix_refl _
  | succ fuel ih =>
    intro req st
    cases req with
    | val sc =>
      cases sc with
      | bool =>
        simp only [decodeD]
        rcases h : parse_bool st with ⟨r, st'⟩
        have hs := parse_bool_suffix st
        rw [h] at hs
        cases r with
        | ok b => exact hs
        | error e => exact hs
      | uint w =>
        simp only [decodeD]
        rcases h : parse_unsigned w st with ⟨r, st'⟩
        have hs := parse_unsigned_suffix w st
        rw [h] at hs
        cases r with
        | ok n => exact hs
        | error e => exact hs
      | chr =>
        simp only [decodeD]
        rcases h : parse_string st with ⟨r, st'⟩
        have hs := parse_string_suffix st
        rw [h] at hs
        cases r with
        | ok s =>
          rcases s with _ | ⟨c1, _ | ⟨c2, s2⟩⟩
          · exact hs
          · exact hs
          · exact hs
        | error e => exact hs
      | str =>
        simp only [decodeD]
        rcases h : parse_string st with ⟨r, st'⟩
        have hs := parse_string_suffix st
        rw [h] at hs
        cases r with
        | ok s => exact hs
        | error e => exact hs
      | unit =>
        simp only [decodeD]
        split
        · exact List.suffix_refl _
        · exact List.suffix_refl _
      | option sc =>
        simp only [decodeD]
        split
        · exact List.suffix_refl _
        · rcases h : decodeD fuel (Req.val sc) st with ⟨r, st'⟩
          have hs := ih (Req.val sc) st
          rw [h] at hs
          cases r with
          | ok rv =>
            cases rv with
            | val v => exact hs
            | items vs => exact hs
            | entries es => exact hs
          | error e => exact hs
      | seq sc =>
        simp only [decodeD]
        rcases h : decodeD fuel (Req.seqItems sc true) { st with in_seq := true } with ⟨r, st'⟩
        have hs := ih (Req.seqItems sc true) { st with in_seq := true }
        rw [h] at hs
        cases r with
        | ok rv =>
          cases rv with
          | val v => exact hs
          | items vs => exact hs
          | entries es => exact hs
        | error e => exact hs
      | tuple ss =>
        simp only [decodeD]
        rcases h : decodeD fuel (Req.tupItems ss true) { st with in_seq := true } with ⟨r, st'⟩
        have hs := ih (Req.tupItems ss true) { st with in_seq := true }
        rw [h] at hs
        cases r with
        | ok rv =>
          cases rv with
          | val v => exact hs
          | items vs => exact hs
          | entries es => exact hs
        | error e => exact hs
      | map k v =>
        simp only [decodeD]
        rcases h : decodeD fuel (Req.mapItems k v true) { st with in_map := true } with ⟨r, st'⟩
        have hs := ih (Req.mapItems k v true) { st with in_map := true }
        rw [h] at hs
        cases r with
        | ok rv =>
          cases rv with
          | val v2 => exact hs
          | items vs => exact hs
          | entries es => exact hs
        | error e => exact hs
      | sstruct fields =>
        simp only [decodeD]
        rcases h : decodeD fuel (Req.structItems fields true) st with ⟨r, st'⟩
        have hs := ih (Req.structItems fields true) st
        rw [h] at hs
        cases r with
        | ok rv =>
          cases rv with
          | val v => exact hs
          | items vs => exact hs
          | entries es => exact hs
        | error e => exact hs
      | enum1 variants =>
        simp only [decodeD]
        rcases h : parse_string st with ⟨r, st1⟩
        have hs1 := parse_string_suffix st
        rw [h] at hs1
        cases r with
        | error e => exact hs1
        | ok tag =>
          dsimp only []
          have hs2 : (consume_variant_colon st1).input <:+ st1.input := by
            unfold consume_variant_colon
            split
            · exact shift_input_forward_suffix st1 1
            · exact List.suffix_refl _
          rcases hv : find_variant variants tag with _ | ⟨name, k⟩
          · exact hs1
          · dsimp only []
            cases k with
            | unitk => exact hs2.trans hs1
            | newtypek sc =>
              dsimp only []
              rcases h3 : decodeD fuel (Req.val sc) (consume_variant_colon st1)
                with ⟨r3, st3⟩
              have hs3 := ih (Req.val sc) (consume_variant_colon st1)
              rw [h3] at hs3
              cases r3 with
              | error e => exact (hs3.trans hs2).trans hs1
              | ok rv3 =>
                cases rv3 with
                | val v => exact (hs3.trans hs2).trans hs1
                | items vs => exact (hs3.trans hs2).trans hs1
                | entries es => exact (hs3.trans hs2).trans hs1
            | tuplek ss =>
              dsimp only []
              rcases h3 : decodeD fuel (Req.val (Schema.tuple ss)) (consume_variant_colon st1)
                with ⟨r3, st3⟩
              have hs3 := ih (Req.val (Schema.tuple ss)) (consume_variant_colon st1)
              rw [h3] at hs3
              cases r3 with
              | error e => exact (hs3.trans hs2).trans hs1
              | ok rv3 =>
                cases rv3 with
                | val v => exact (hs3.trans hs2).trans hs1
                | items vs => exact (hs3.trans hs2).trans hs1
                | entries es => exact (hs3.trans hs2).trans hs1
            | structk fields =>
              dsimp only []
              rcases h3 : decodeD fuel (Req.val (Schema.sstruct fields)) (consume_variant_colon st1)
                with ⟨r3, st3⟩
              have hs3 := ih (Req.val (Schema.sstruct fields)) (consume_variant_colon st1)
              rw [h3] at hs3
              cases r3 with
              | error e => exact (hs3.trans hs2).trans hs1
              | ok rv3 =>
                cases rv3 with
                | val v => exact (hs3.trans hs2).trans hs1
                | items vs => exact (hs3.trans hs2).trans hs1
                | entries es => exact (hs3.trans hs2).trans hs1
    | seqItems sc first =>
      obtain ⟨inp, sq, mp⟩ := st
      cases inp with
      | nil => exact List.suffix_refl _
      | cons c t =>
        simp only [decodeD]
        split
        · exact List.suffix_refl _
        · rcases h1 : (if first then ((Except.ok () : Except Error Unit),
              (⟨c :: t, sq, mp⟩ : DState))
            else expect_delim ',' Error.ExpectedArrayComma ⟨c :: t, sq, mp⟩) with ⟨r1, st1⟩
          have hs1 := first_step_suffix first ',' Error.ExpectedArrayComma ⟨c :: t, sq, mp⟩
          rw [h1] at hs1
          cases r1 with
          | error e => exact hs1
          | ok u =>
            dsimp only []
            rcases h2 : decodeD fuel (Req.val sc) st1 with ⟨r2, st2⟩
            have hs2 := ih (Req.val sc) st1
            rw [h2] at hs2
            cases r2 with
            | error e => exact hs2.trans hs1
            | ok rv =>
              cases rv with
              | items vs => exact hs2.trans hs1
              | entries es => exact hs2.trans hs1
              | val v =>
                dsimp only []
                rcases h3 : decodeD fuel (Req.seqItems sc false) st2 with ⟨r3, st3⟩
                have hs3 := ih (Req.seqItems sc false) st2
                rw [h3] at hs3
                cases r3 with
                | error e => exact (hs3.trans hs2).trans hs1
                | ok rv3 =>
                  cases rv3 with
                  | val v3 => exact (hs3.trans hs2).trans hs1
                  | items vs => exact (hs3.trans hs2).trans hs1
                  | entries es => exact (hs3.trans hs2).trans hs1
    | tupItems ss first =>
      cases ss with
      | nil => exact List.suffix_refl _
      | cons sc ss' =>
        obtain ⟨inp, sq, mp⟩ := st
        cases inp with
        | nil => exact List.suffix_refl _
        | cons c t =>
          simp only [decodeD]
          split
          · exact List.suffix_refl _
          · rcases h1 : (if first then ((Except.ok () : Except Error Unit),
                (⟨c :: t, sq, mp⟩ : DState))
              else expect_delim ',' Error.ExpectedArrayComma ⟨c :: t, sq, mp⟩) with ⟨r1, st1⟩
            have hs1 := first_step_suffix first ',' Error.ExpectedArrayComma ⟨c :: t, sq, mp⟩
            rw [h1] at hs1
            cases r1 with
            | error e => exact hs1
            | ok u =>
              dsimp only []
              rcases h2 : decodeD fuel (Req.val sc) st1 with ⟨r2, st2⟩
              have hs2 := ih (Req.val sc) st1
              rw [h2] at hs2
              cases r2 with
              | error e => exact hs2.trans hs1
              | ok rv =>
                cases rv with
                | items vs => exact hs2.trans hs1
                | entries es => exact hs2.trans hs1
                | val v =>
                  dsimp only []
                  rcases h3 : decodeD fuel (Req.tupItems ss' false) st2 with ⟨r3, st3⟩
                  have hs3 := ih (Req.tupItems ss' false) st2
                  rw [h3] at hs3
                  cases r3 with
                  | error e => exact (hs3.trans hs2).trans hs1
                  | ok rv3 =>
                    cases rv3 with
                    | val v3 => exact (hs3.trans hs2).trans hs1
                    | items vs => exact (hs3.trans hs2).trans hs1
                    | entries es => exact (hs3.trans hs2).trans hs1
    | structItems ss first =>
      cases ss with
      | nil => exact List.suffix_refl _
      | cons sc ss' =>
        obtain ⟨inp, sq, mp⟩ := st
        cases inp with
        | nil => exact List.suffix_refl _
        | cons c t =>
          simp only [decodeD]
          rcases h1 : (if first then ((Except.ok () : Except Error Unit),
              (⟨c :: t, sq, mp⟩ : DState))
            else expect_delim ':' Error.ExpectedArrayComma ⟨c :: t, sq, mp⟩) with ⟨r1, st1⟩
          have hs1 := first_step_suffix first ':' Error.ExpectedArrayComma ⟨c :: t, sq, mp⟩
          rw [h1] at hs1
          cases r1 with
          | error e => exact hs1
          | ok u =>
            dsimp only []
            rcases h2 : decodeD fuel (Req.val sc) st1 with ⟨r2, st2⟩
            have hs2 := ih (Req.val sc) st1
            rw [h2] at hs2
            cases r2 with
            | error e => exact hs2.trans hs1
            | ok rv =>
              cases rv with
              | items vs => exact hs2.trans hs1
              | entries es => exact hs2.trans hs1
              | val v =>
                dsimp only []
                rcases h3 : decodeD fuel (Req.structItems ss' false) st2 with ⟨r3, st3⟩
                have hs3 := ih (Req.structItems ss' false) st2
                rw [h3] at hs3
                cases r3 with
                | error e => exact (hs3.trans hs2).trans hs1
                | ok rv3 =>
                  cases rv3 with
                  | val v3 => exact (hs3.trans hs2).trans hs1
                  | items vs => exact (hs3.trans hs2).trans hs1
                  | entries es => exact (hs3.trans hs2).trans hs1
    | mapItems k v first =>
      obtain ⟨inp, sq, mp⟩ := st
      cases inp with
      | nil => exact List.suffix_refl _
      | cons c t =>
        simp only [decodeD]
        split
        · exact List.suffix_refl _
        · rcases h1 : (if first then ((Except.ok () : Except Error Unit),
              (⟨c :: t, sq, mp⟩ : DState))
            else expect_delim ',' Error.ExpectedMapComma ⟨c :: t, sq, mp⟩) with ⟨r1, st1⟩
          have hs1 := first_step_suffix first ',' Error.ExpectedMapComma ⟨c :: t, sq, mp⟩
          rw [h1] at hs1
          cases r1 with
          | error e => exact hs1
          | ok u =>
            dsimp only []
            rcases hlen : get_next_nonescaped_char st1.input '=' with _ | len
            · exact hs1
            · dsimp only []
              split
              · exact hs1
              · rcases h2 : decodeD fuel (Req.val k) st1 with ⟨r2, st2⟩
                have hs2 := ih (Req.val k) st1
                rw [h2] at hs2
                cases r2 with
                | error e => exact hs2.trans hs1
                | ok rv =>
                  cases rv with
                  | items vs => exact hs2.trans hs1
                  | entries es => exact hs2.trans hs1
                  | val kv =>
                    dsimp only []
                    rcases h3 : expect_delim '=' Error.ExpectedMapEquals st2 with ⟨r3, st3⟩
                    have hs3 := expect_delim_suffix '=' Error.ExpectedMapEquals st2
                    rw [h3] at hs3
                    cases r3 with
                    | error e => exact (hs3.trans hs2).trans hs1
                    | ok u3 =>
                      dsimp only []
                      split
                      · exact (hs3.trans hs2).trans hs1
                      · rcases h4 : decodeD fuel (Req.val v) st3 with ⟨r4, st4⟩
                        have hs4 := ih (Req.val v) st3
                        rw [h4] at hs4
                        cases r4 with
                        | error e => exact ((hs4.trans hs3).trans hs2).trans hs1
                        | ok rv4 =>
                          cases rv4 with
                          | items vs => exact ((hs4.trans hs3).trans hs2).trans hs1
                          | entries es => exact ((hs4.trans hs3).trans hs2).trans hs1
                          | val vv =>
                            dsimp only []
                            rcases h5 : decodeD fuel (Req.mapItems k v false) st4 with ⟨r5, st5⟩
                            have hs5 := ih (Req.mapItems k v false) st4
                            rw [h5] at hs5
                            cases r5 with
                            | error e =>
                              exact (((hs5.trans hs4).trans hs3).trans hs2).trans hs1
                            | ok rv5 =>
                              cases rv5 with
                              | val v5 =>
                                exact (((hs5.trans hs4).trans hs3).trans hs2).trans hs1
                              | items vs =>
                                exact (((hs5.trans hs4).trans hs3).trans hs2).trans hs1
                              | entries es =>
                                exact (((hs5.trans hs4).trans hs3).trans hs2).trans hs1

/-- Witness for C7, on both sides of the iff: `"a"` as a string decodes and
consumes everything, so the value is returned; `"a:b"` as a string decodes
`"a"` but leaves `":b"`, so `TrailingCharacters` is returned. -/
theorem c7_trailing_characters_witness :
    record_from_str Schema.str ['a'] = Except.ok (Value.str ['a']) ∧
    record_from_str Schema.str ['a', ':', 'b'] = Except.error Error.TrailingCharacters := by
  constructor
  · have h := c7_trailing_characters Schema.str ['a'] (Value.str ['a'])
      { input := [], in_seq := false, in_map := false } rfl
    simpa using h
  · have h := c7_trailing_characters Schema.str ['a', ':', 'b'] (Value.str ['a'])
      { input := [':', 'b'], in_seq := false, in_map := false } rfl
    simpa using h

/-- Claim C1 (amended): round-trip `record_from_str sc (record_to_string v) = Ok v`
holds on the class of flat values over the scalar class `ScalarOK` —
booleans, width-bounded unsigned integers, and reserved-free characters and
non-empty reserved-free strings — closed under one level of composition:
the scalars themselves; `Option` (both `None` and `Some` of a scalar);
sequences of scalars; tuples of scalars; structs of scalar fields; maps with
scalar keys and values; and enums whose serialized variant (unit, newtype of
a scalar, tuple of scalars, struct of scalars) is found by name among the
declared variants, the name being non-empty and reserved-free.  The
counterexamples bound this class: sequence elements must be non-empty (an
empty string slot mis-tokenises), composites do not nest (the inner decode
clears the context flag), and an absent (`None`) element's empty slot
vanishes. -/
theorem c1_roundtrip_amended :
    (∀ (sc : Schema) (v : Value), ScalarOK sc v →
      record_from_str sc (record_to_string v) = Except.ok v) ∧
    (∀ sc : Schema, record_from_str (Schema.option sc)
        (record_to_string (Value.opt none)) = Except.ok (Value.opt none)) ∧
    (∀ (sc : Schema) (v : Value), ScalarOK sc v →
      record_from_str (Schema.option sc) (record_to_string (Value.opt (some v))) =
        Except.ok (Value.opt (some v))) ∧
    (∀ (sc : Schema) (vs : List Value), (∀ v ∈ vs, ScalarOK sc v) →
      record_from_str (Schema.seq sc) (record_to_string (Value.list vs)) =
        Except.ok (Value.list vs)) ∧
    (∀ ps : List (Schema × Value), (∀ p ∈ ps, ScalarOK p.1 p.2) →
      record_from_str (Schema.tuple (ps.map Prod.fst))
          (record_to_string (Value.tup (ps.map Prod.snd))) =
        Except.ok (Value.tup (ps.map Prod.snd))) ∧
    (∀ ps : List (Schema × Value), (∀ p ∈ ps, ScalarOK p.1 p.2) →
      record_from_str (Schema.sstruct (ps.map Prod.fst))
          (record_to_string (Value.structv (ps.map Prod.snd))) =
        Except.ok (Value.structv (ps.map Prod.snd))) ∧
    (∀ (k v : Schema) (es : List (Value × Value)),
      (∀ e ∈ es, ScalarOK k e.1 ∧ ScalarOK v e.2) →
      record_from_str (Schema.map k v) (record_to_string (Value.mapv es)) =
        Except.ok (Value.mapv es)) ∧
    (∀ (variants : List (Str × VKind)) (tag nm : Str), tag ≠ [] → GoodStr tag →
      find_variant variants tag = some (nm, VKind.unitk) →
      record_from_str (Schema.enum1 variants)
          (record_to_string (Value.enumv tag none)) =
        Except.ok (Value.enumv tag none)) ∧
    (∀ (variants : List (Str × VKind)) (tag nm : Str) (psc : Schema) (pv : Value),
      tag ≠ [] → GoodStr tag →
      find_variant variants tag = some (nm, VKind.newtypek psc) → ScalarOK psc pv →
      record_from_str (Schema.enum1 variants)
          (record_to_string (Value.enumv tag (some pv))) =
        Except.ok (Value.enumv tag (some pv))) ∧
    (∀ (variants : List (Str × VKind)) (tag nm : Str) (ps : List (Schema × Value)),
      tag ≠ [] → GoodStr tag →
      find_variant variants tag = some (nm, VKind.tuplek (ps.map Prod.fst)) →
      (∀ p ∈ ps, ScalarOK p.1 p.2) →
      record_from_str (Schema.enum1 variants)
          (record_to_string (Value.enumv tag (some (Value.tup (ps.map Prod.snd))))) =
        Except.ok (Value.enumv tag (some (Value.tup (ps.map Prod.snd))))) ∧
    (∀ (variants : List (Str × VKind)) (tag nm : Str) (ps : List (Schema × Value)),
      tag ≠ [] → GoodStr tag →
      find_variant variants tag = some (nm, VKind.structk (ps.map Prod.fst)) →
      (∀ p ∈ ps, ScalarOK p.1 p.2) →
      record_from_str (Schema.enum1 variants)
          (record_to_string (Value.enumv tag (some (Value.structv (ps.map Prod.snd))))) =
        Except.ok (Value.enumv tag (some (Value.structv (ps.map Prod.snd))))) := by
  exact ⟨fun sc v h => roundtrip_scalar h,
    roundtrip_opt_none,
    fun sc v h => roundtrip_opt_some h,
    roundtrip_seq,
    roundtrip_tuple,
    roundtrip_struct,
    roundtrip_map,
    roundtrip_enum_unit,
    roundtrip_enum_newtype,
    roundtrip_enum_tuplev,
    roundtrip_enum_structv⟩

/-- Witness for C1 (amended): concrete round-trips drawn from each family of
the amended class — a `u8`, an optional string, a sequence of `u8`s, a mixed
bool/string tuple, a two-field struct, a string-to-`u8` map, and a newtype
enum variant. -/
theorem c1_roundtrip_amended_witness :
    record_from_str (Schema.uint 8) (record_to_string (Value.uint 200)) =
      Except.ok (Value.uint 200) ∧
    record_from_str (Schema.option Schema.str)
        (record_to_string (Value.opt (some (Value.str ['x'])))) =
      Except.ok (Value.opt (some (Value.str ['x']))) ∧
    record_from_str (Schema.seq (Schema.uint 8))
        (record_to_string (Value.list [Value.uint 1, Value.uint 2])) =
      Except.ok (Value.list [Value.uint 1, Value.uint 2]) ∧
    record_from_str (Schema.tuple [Schema.bool, Schema.str])
        (record_to_string (Value.tup [Value.bool true, Value.str ['x']])) =
      Except.ok (Value.tup [Value.bool true, Value.str ['x']]) ∧
    record_from_str (Schema.sstruct [Schema.uint 8, Schema.str])
        (record_to_string (Value.structv [Value.uint 7, Value.str ['y']])) =
      Except.ok (Value.structv [Value.uint 7, Value.str ['y']]) ∧
    record_from_str (Schema.map Schema.str (Schema.uint 8))
        (record_to_string (Value.mapv [(Value.str ['a'], Value.uint 1),
          (Value.str ['b'], Value.uint 2)])) =
      Except.ok (Value.mapv [(Value.str ['a'], Value.uint 1),
        (Value.str ['b'], Value.uint 2)]) ∧
    record_from_str (Schema.enum1 [(['A'], VKind.newtypek Schema.str)])
        (record_to_string (Value.enumv ['A'] (some (Value.str ['x'])))) =
      Except.ok (Value.enumv ['A'] (some (Value.str ['x']))) := by
  refine ⟨?_, ?_, ?_, ?_, ?_, ?_, ?_⟩
  · exact c1_roundtrip_amended.1 (Schema.uint 8) (Value.uint 200)
      (ScalarOK.uint 8 200 (by decide))
  · exact c1_roundtrip_amended.2.2.1 Schema.str (Value.str ['x'])
      (ScalarOK.str ['x'] (by decide) (by simp [GoodStr, reserved]))
  · exact c1_roundtrip_amended.2.2.2.1 (Schema.uint 8) [Value.uint 1, Value.uint 2] (by
      intro v hv
      simp only [List.mem_cons, List.not_mem_nil, or_false] at hv
      rcases hv with rfl | rfl
      · exact ScalarOK.uint 8 1 (by decide)
      · exact ScalarOK.uint 8 2 (by decide))
  · exact c1_roundtrip_amended.2.2.2.2.1
      [(Schema.bool, Value.bool true), (Schema.str, Value.str ['x'])] (by
      intro p hp
      simp only [List.mem_cons, List.not_mem_nil, or_false] at hp
      rcases hp with rfl | rfl
      · exact ScalarOK.bool true
      · exact ScalarOK.str ['x'] (by decide) (by simp [GoodStr, reserved]))
  · exact c1_roundtrip_amended.2.2.2.2.2.1
      [(Schema.uint 8, Value.uint 7), (Schema.str, Value.str ['y'])] (by
      intro p hp
      simp only [List.mem_cons, List.not_mem_nil, or_false] at hp
      rcases hp with rfl | rfl
      · exact ScalarOK.uint 8 7 (by decide)
      · exact ScalarOK.str ['y'] (by decide) (by simp [GoodStr, reserved]))
  · exact c1_roundtrip_amended.2.2.2.2.2.2.1 Schema.str (Schema.uint 8)
      [(Value.str ['a'], Value.uint 1), (Value.str ['b'], Value.uint 2)] (by
      intro e he
      simp only [List.mem_cons, List.not_mem_nil, or_false] at he
      rcases he with rfl | rfl
      · exact ⟨ScalarOK.str ['a'] (by decide) (by simp [GoodStr, reserved]),
          ScalarOK.uint 8 1 (by decide)⟩
      · exact ⟨ScalarOK.str ['b'] (by decide) (by simp [GoodStr, reserved]),
          ScalarOK.uint 8 2 (by decide)⟩)
  · exact c1_roundtrip_amended.2.2.2.2.2.2.2.2.1
      [(['A'], VKind.newtypek Schema.str)] ['A'] ['A'] Schema.str (Value.str ['x'])
      (by decide) (by simp [GoodStr, reserved]) rfl
      (ScalarOK.str ['x'] (by decide) (by simp [GoodStr, reserved]))
